import Mathlib

/-!
Shallow embedding of the v2 state resolution algorithm
(`synapse/state/v2.py`) and verification of the specification claims.

Modelling conventions:
* Python dicts become association lists with Python insertion semantics
  (`aget` is key lookup, `aset` is `d[k] = v`: overwrite in place, append
  when fresh).  Dict equality in the claims is content (lookup) equality.
* The asynchronous store is a pure record of functions; `get_events` with a
  list of ids is per-id application of `StateResolutionStore.events`.
* The event-map memo used by `_get_event` only caches responses of the pure
  store, so a lookup through memo-then-store is modelled by the fixed
  function `fun eid => (aget eid event_map).orElse (fun _ => store.events eid)`;
  the mutation of the memo is not observable through it.  Direct subscripts
  `event_map[e]` (which raise `KeyError` in Python) are modelled as fallible
  lookups on the same function at spots the algorithm has already populated.
* Python `while` loops over the lazily fetched graph become structural
  recursion on an explicit `fuel : Nat`; exhausted fuel is a distinguished
  `.error`, so any `.ok` result is one the Python loop also reaches.
* `clock.sleep(0)` yield points are no-ops and are dropped.
* Fatal exceptions become `Except.error`; the room-version authorization
  predicate `event_auth.check` is an external input returning `allowed`
  (normal return), `authError` (raising `AuthError`) or `fatal` (any other
  exception).
-/

deriving instance DecidableEq for Except

namespace V2

/-- Key lookup in an association list (Python `d.get(k)` / `d[k]`). -/
def aget {α β : Type} [DecidableEq α] (k : α) : List (α × β) → Option β
  | [] => none
  | (k', v) :: t => if k' = k then some v else aget k t

/-- Python `d[k] = v`: overwrite the binding in place, append when fresh. -/
def aset {α β : Type} [DecidableEq α] (k : α) (v : β) : List (α × β) → List (α × β)
  | [] => [(k, v)]
  | (k', v') :: t => if k' = k then (k, v) :: t else (k', v') :: aset k v t

/-- The keys of an association list, in insertion order. -/
def akeys {α β : Type} (l : List (α × β)) : List α := l.map Prod.fst

/-- The association list has no duplicate keys (Python dicts always satisfy this). -/
def NodupK {α β : Type} (l : List (α × β)) : Prop := (akeys l).Nodup

theorem aget_aset_self {α β : Type} [DecidableEq α] (k : α) (v : β) (l : List (α × β)) :
    aget k (aset k v l) = some v := by
  induction l with
  | nil => simp [aget, aset]
  | cons h t ih =>
    obtain ⟨k', v'⟩ := h
    by_cases hk : k' = k
    · simp [aset, hk, aget]
    · simp [aset, hk, aget, ih]

theorem aget_aset_ne {α β : Type} [DecidableEq α] {k k' : α} (v : β) (l : List (α × β))
    (h : k' ≠ k) : aget k' (aset k v l) = aget k' l := by
  induction l with
  | nil => simp [aget, aset, Ne.symm h]
  | cons hd t ih =>
    obtain ⟨k₀, v₀⟩ := hd
    by_cases hk : k₀ = k
    · subst hk
      simp [aset, aget, Ne.symm h]
    · simp only [aset, if_neg hk, aget]
      by_cases hk' : k₀ = k'
      · simp [hk']
      · simp [hk', ih]

theorem aget_eq_none_of_not_mem_akeys {α β : Type} [DecidableEq α] {k : α} {l : List (α × β)}
    (h : k ∉ akeys l) : aget k l = none := by
  induction l with
  | nil => rfl
  | cons hd t ih =>
    obtain ⟨k', v'⟩ := hd
    simp [akeys] at h
    simp [aget, h.1, ih (by simpa [akeys] using h.2)]
    intro hh
    exact absurd hh.symm h.1

theorem aget_isSome_of_mem_akeys {α β : Type} [DecidableEq α] {k : α} {l : List (α × β)}
    (h : k ∈ akeys l) : (aget k l).isSome := by
  induction l with
  | nil => simp [akeys] at h
  | cons hd t ih =>
    obtain ⟨k', v'⟩ := hd
    by_cases hk : k' = k
    · simp [aget, hk]
    · simp [akeys, Ne.symm hk] at h
      simpa [aget, hk] using ih (by simpa [akeys] using h)

theorem mem_akeys_of_aget_isSome {α β : Type} [DecidableEq α] {k : α} {l : List (α × β)}
    (h : (aget k l).isSome) : k ∈ akeys l := by
  by_contra hk
  rw [aget_eq_none_of_not_mem_akeys hk] at h
  simp at h

def charListLt : List Char → List Char → Bool
  | [], [] => false
  | [], _ :: _ => true
  | _ :: _, [] => false
  | a :: as, b :: bs => decide (a < b) || (decide (a = b) && charListLt as bs)

/-- Strict lexicographic order on strings, by code point (Python `<`). -/
def strLtb (s t : String) : Bool := charListLt s.data t.data

theorem charListLt_irrefl : ∀ l : List Char, charListLt l l = false
  | [] => rfl
  | a :: as => by simp [charListLt, charListLt_irrefl as]

theorem charListLt_trans : ∀ {l₁ l₂ l₃ : List Char},
    charListLt l₁ l₂ = true → charListLt l₂ l₃ = true → charListLt l₁ l₃ = true
  | [], [], _, h₁, _ => by simp [charListLt] at h₁
  | [], _ :: _, [], _, h₂ => by simp [charListLt] at h₂
  | [], _ :: _, _ :: _, _, _ => rfl
  | _ :: _, [], _, h₁, _ => by simp [charListLt] at h₁
  | _ :: _, _ :: _, [], _, h₂ => by simp [charListLt] at h₂
  | a :: as, b :: bs, c :: cs, h₁, h₂ => by
    simp only [charListLt, Bool.or_eq_true, Bool.and_eq_true, decide_eq_true_eq] at h₁ h₂ ⊢
    rcases h₁ with h₁ | ⟨rfl, h₁⟩
    · rcases h₂ with h₂ | ⟨rfl, _⟩
      · exact Or.inl (lt_trans h₁ h₂)
      · exact Or.inl h₁
    · rcases h₂ with h₂ | ⟨rfl, h₂⟩
      · exact Or.inl h₂
      · exact Or.inr ⟨rfl, charListLt_trans h₁ h₂⟩

theorem charListLt_total : ∀ l₁ l₂ : List Char,
    l₁ = l₂ ∨ charListLt l₁ l₂ = true ∨ charListLt l₂ l₁ = true
  | [], [] => Or.inl rfl
  | [], _ :: _ => Or.inr (Or.inl rfl)
  | _ :: _, [] => Or.inr (Or.inr rfl)
  | a :: as, b :: bs => by
    rcases lt_trichotomy a b with h | h | h
    · exact Or.inr (Or.inl (by simp [charListLt, h]))
    · subst h
      rcases charListLt_total as bs with h | h | h
      · exact Or.inl (by rw [h])
      · exact Or.inr (Or.inl (by simp [charListLt, h]))
      · exact Or.inr (Or.inr (by simp [charListLt, h]))
    · exact Or.inr (Or.inr (by simp [charListLt, h]))

theorem charListLt_asymm {l₁ l₂ : List Char} (h : charListLt l₁ l₂ = true) :
    charListLt l₂ l₁ = false := by
  by_contra hc
  have h₂ : charListLt l₂ l₁ = true := by
    cases hh : charListLt l₂ l₁ with
    | false => exact absurd hh hc
    | true => rfl
  have := charListLt_trans h h₂
  rw [charListLt_irrefl] at this
  exact Bool.false_ne_true this

theorem strLtb_trans {s t u : String} (h₁ : strLtb s t = true) (h₂ : strLtb t u = true) :
    strLtb s u = true := charListLt_trans h₁ h₂

theorem strLtb_total (s t : String) : s = t ∨ strLtb s t = true ∨ strLtb t s = true := by
  rcases charListLt_total s.data t.data with h | h | h
  · refine Or.inl ?_
    cases s
    cases t
    exact congrArg String.mk h
  · exact Or.inr (Or.inl h)
  · exact Or.inr (Or.inr h)

theorem strLtb_asymm {s t : String} (h : strLtb s t = true) : strLtb t s = false :=
  charListLt_asymm h

/-! ### Data model -/

/-- The fields of a `FrozenEvent` the algorithm reads.  The free-form JSON
`content` is narrowed to the three entries the module consults:
`users` (map user id to power level), `users_default` and `creator`; the
Python `int(...)` coercion is pre-applied by taking values in `Int`.
`membership` is `content["membership"]`, absent for non-member events. -/
structure Event where
  event_id : String
  room_id : String
  type : String
  state_key : String
  sender : String
  origin_server_ts : Nat
  content_users : List (String × Int)
  content_users_default : Option Int
  content_creator : Option String
  auth_event_ids : List String
  rejected_reason : Option String
  membership : Option String
deriving DecidableEq

/-- A `(type, state_key)` pair. -/
abbrev StateKey := String × String

/-- A map from `(type, state_key)` to event id (a Python dict). -/
abbrev StateMap := List (StateKey × String)

def EventTypes.PowerLevels : String := "m.room.power_levels"

def EventTypes.Create : String := "m.room.create"

def EventTypes.JoinRules : String := "m.room.join_rules"

def EventTypes.Member : String := "m.room.member"

/-- The `StateResolutionStore` interface, as a pure record.  `get_events`
with a list of ids and `allow_rejected=True` is per-id application of
`events`; ids the store cannot find are omitted from the response. -/
structure StateResolutionStore where
  events : String → Option Event
  auth_chain_difference : List (List String) → List String

/-- Outcome of the room-version authorization predicate `event_auth.check`:
it returns normally (`allowed`), raises `AuthError` (`authError`) or raises
some other exception (`fatal`). -/
inductive AuthOutcome where
  | allowed : AuthOutcome
  | authError (msg : String) : AuthOutcome
  | fatal (msg : String) : AuthOutcome
deriving DecidableEq

/-- The room-version interface consumed by the module: the key set of
`KNOWN_ROOM_VERSIONS`, `event_auth.auth_types_for_event` and
`event_auth.check` (with signature and size checks disabled). -/
structure EventAuthAPI where
  known_room_versions : List String
  auth_types_for_event : Event → List StateKey
  check : String → Event → List (StateKey × Event) → AuthOutcome

/-! ### Event loader -/

/-- `_get_event`: look `event_id` up in the event map, falling back to the
store; the memo-then-store chain is the `lookup` function.  Missing events
raise unless `allow_none`; an event from the wrong room always raises. -/
def _get_event (room_id event_id : String) (lookup : String → Option Event)
    (allow_none : Bool) : Except String (Option Event) :=
  match lookup event_id with
  | none =>
    if allow_none then .ok none
    else .error ("Unknown event " ++ event_id)
  | some event =>
    if event.room_id = room_id then .ok (some event)
    else .error ("In state res for room " ++ room_id ++ ", event " ++ event_id ++
      " is in " ++ event.room_id)

/-! ### Sender power level (`_get_power_level_for_sender`) -/

/-- The scan shared by three loops of the source: walk an auth-event-id
list, loading each event with `allow_none=True`, and stop at the first
loaded event whose `(type, state_key)` is `(PowerLevels, "")`, returning
the id together with the event. -/
def findPLAuthPair (room_id : String) (lookup : String → Option Event) :
    List String → Except String (Option (String × Event))
  | [] => .ok none
  | aid :: rest =>
    match _get_event room_id aid lookup true with
    | .error e => .error e
    | .ok none => findPLAuthPair room_id lookup rest
    | .ok (some aev) =>
      if (aev.type, aev.state_key) = (EventTypes.PowerLevels, "") then .ok (some (aid, aev))
      else findPLAuthPair room_id lookup rest

/-- The second loop of `_get_power_level_for_sender`: scan for the first
`(Create, "")` auth event; creator match gives 100, mismatch breaks out
and the function returns 0, as does running off the end of the list. -/
def findCreatorLevel (room_id : String) (lookup : String → Option Event) (sender : String) :
    List String → Except String Int
  | [] => .ok 0
  | aid :: rest =>
    match _get_event room_id aid lookup true with
    | .error e => .error e
    | .ok none => findCreatorLevel room_id lookup sender rest
    | .ok (some aev) =>
      if (aev.type, aev.state_key) = (EventTypes.Create, "") then
        if aev.content_creator = some sender then .ok 100 else .ok 0
      else findCreatorLevel room_id lookup sender rest

/-- `_get_power_level_for_sender`: the power level of the sender of
`event_id` according to that event's auth events. -/
def _get_power_level_for_sender (room_id event_id : String)
    (lookup : String → Option Event) : Except String Int :=
  match _get_event room_id event_id lookup false with
  | .error e => .error e
  | .ok none => .error ("Unknown event " ++ event_id)
  | .ok (some event) =>
    match findPLAuthPair room_id lookup event.auth_event_ids with
    | .error e => .error e
    | .ok none => findCreatorLevel room_id lookup event.sender event.auth_event_ids
    | .ok (some (_, pl)) =>
      match aget event.sender pl.content_users with
      | some level => .ok level
      | none => .ok (pl.content_users_default.getD 0)

/-! ### Auth chain difference -/

/-- `_get_auth_chain_difference`: delegate to the store with the value sets
of the input state maps. -/
def _get_auth_chain_difference (state_sets : List StateMap)
    (store : StateResolutionStore) : List String :=
  store.auth_chain_difference (state_sets.map (fun s => (s.map Prod.snd).dedup))

/-! ### Separator (`_seperate`) -/

/-- Per-key body of `_seperate`, processed over the deduplicated union of
the input keys.  `event_ids` is the set of values the input sets assign to
the key, absence included as Python `None`. -/
def sepGo (state_sets : List StateMap) :
    List StateKey → StateMap × List (StateKey × List String)
  | [] => ([], [])
  | key :: rest =>
    let p := sepGo state_sets rest
    let event_ids := (state_sets.map (fun s => aget key s)).dedup
    if event_ids.length = 1 then
      match event_ids with
      | [some v] => ((key, v) :: p.1, p.2)
      | _ => p
    else (p.1, (key, event_ids.filterMap id) :: p.2)

/-- `_seperate`: split the input state sets into unconflicted and
conflicted state.  A key is conflicted as soon as the value set over the
inputs (absence counting as a null) has more than one element; the null is
discarded from the conflicted candidate set. -/
def _seperate (state_sets : List StateMap) : StateMap × List (StateKey × List String) :=
  sepGo state_sets ((state_sets.flatMap (fun s => s.map Prod.fst)).dedup)

/-! ### Power event predicate -/

/-- `_is_power_event`. -/
def _is_power_event (event : Event) : Bool :=
  if (event.type, event.state_key) = (EventTypes.PowerLevels, "") ∨
      (event.type, event.state_key) = (EventTypes.JoinRules, "") ∨
      (event.type, event.state_key) = (EventTypes.Create, "") then
    true
  else if event.type = EventTypes.Member then
    if event.membership = some ("leave") ∨ event.membership = some ("ban") then
      decide (event.sender ≠ event.state_key)
    else false
  else false

/-! ### Auth chain graph construction -/

/-- A map from event id to the set of its auth-event edges (a Python dict
of sets; the set is a duplicate-free list in insertion order). -/
abbrev Graph := List (String × List String)

def gkeys (g : Graph) : List String := g.map Prod.fst

/-- `graph.setdefault(eid, set())`: append a fresh key with an empty edge
set, keep the dict unchanged when the key exists. -/
def gsetdefault (g : Graph) (eid : String) : Graph :=
  if (aget eid g).isSome then g else g ++ [(eid, [])]

/-- `graph.setdefault(eid, set()).add(aid)`. -/
def gaddEdge (g : Graph) (eid aid : String) : Graph :=
  match aget eid g with
  | none => g ++ [(eid, [aid])]
  | some edges => if aid ∈ edges then g else aset eid (edges ++ [aid]) g

/-- The `while state:` loop of `_add_event_and_auth_chain_to_graph`.  The
Python list `state` pops and appends at the end; the head of `stack` is
that end.  Each iteration keys the popped id, loads its event (fatal if
missing or in the wrong room), pushes the auth-event ids that are in the
auth difference and not yet keyed, and records an edge to every
auth-event id in the auth difference. -/
def buildGraphLoop (room_id : String) (lookup : String → Option Event)
    (auth_diff : List String) : Nat → List String → Graph → Except String Graph
  | _, [], graph => .ok graph
  | 0, _ :: _, _ => .error ("graph traversal fuel exhausted")
  | fuel + 1, eid :: stack, graph =>
    let graph1 := gsetdefault graph eid
    match _get_event room_id eid lookup false with
    | .error e => .error e
    | .ok none => .error ("Unknown event " ++ eid)
    | .ok (some event) =>
      let diffAuth := event.auth_event_ids.filter (fun aid => decide (aid ∈ auth_diff))
      let pushes := diffAuth.filter (fun aid => (aget aid graph1).isNone)
      let graph2 := diffAuth.foldl (fun g aid => gaddEdge g eid aid) graph1
      buildGraphLoop room_id lookup auth_diff fuel (pushes.reverse ++ stack) graph2

/-- `_add_event_and_auth_chain_to_graph`. -/
def _add_event_and_auth_chain_to_graph (graph : Graph) (room_id : String)
    (event_id : String) (lookup : String → Option Event) (auth_diff : List String)
    (fuel : Nat) : Except String Graph :=
  buildGraphLoop room_id lookup auth_diff fuel [event_id] graph

/-- The graph-building loop of `_reverse_topological_power_sort`: extend
the shared graph with each start event and its auth chain restricted to
the auth difference. -/
def buildPowerGraph (room_id : String) (lookup : String → Option Event)
    (auth_diff : List String) (fuel : Nat) : List String → Graph → Except String Graph
  | [], g => .ok g
  | eid :: rest, g =>
    match _add_event_and_auth_chain_to_graph g room_id eid lookup auth_diff fuel with
    | .error e => .error e
    | .ok g2 => buildPowerGraph room_id lookup auth_diff fuel rest g2

/-! ### Lexicographic (reverse) topological sort -/

/-- The comparison the Python heap performs on its `(key(node), node)`
entries: the key values under `kLt` first, the node ids as tie break. -/
def nodeLtB {κ : Type} [DecidableEq κ] (key : String → κ) (kLt : κ → κ → Bool)
    (n m : String) : Bool :=
  kLt (key n) (key m) || (decide (key n = key m) && strLtb n m)

/-- The node the heap would pop next: the `nodeLtB`-least element. -/
def minNode {κ : Type} [DecidableEq κ] (key : String → κ) (kLt : κ → κ → Bool) :
    List String → Option String
  | [] => none
  | n :: rest =>
    match minNode key kLt rest with
    | none => some n
    | some m => if nodeLtB key kLt n m then some n else some m

/-- One Kahn round per fuel unit: the nodes whose remaining out-edge set is
empty (every target already popped) form the heap content; pop the least,
then continue with it removed.  `fuel` starts at the node count and the
remaining-node count falls by one per round, so fuel never runs out. -/
def topoGo {κ : Type} [DecidableEq κ] (edges : String → List String)
    (key : String → κ) (kLt : κ → κ → Bool) :
    Nat → List String → List String → List String
  | 0, _, _ => []
  | fuel + 1, remaining, popped =>
    let elig := remaining.filter (fun n => (edges n).all (fun v => decide (v ∈ popped)))
    match minNode key kLt elig with
    | none => []
    | some m => m :: topoGo edges key kLt fuel (remaining.erase m) (m :: popped)

/-- `lexicographical_topological_sort`: Kahn's algorithm on the reverse
edges, the zero-out-degree heap ordered by `(key(node), node)`.  The heap
and the destructive out-degree map are modelled by their observable
content: at every round the algorithm pops the least node among those all
of whose out-edges point at already-popped nodes. -/
def lexicographical_topological_sort {κ : Type} [DecidableEq κ] (graph : Graph)
    (key : String → κ) (kLt : κ → κ → Bool) : List String :=
  topoGo (fun n => (aget n graph).getD []) key kLt (gkeys graph).length (gkeys graph) []

/-! ### Reverse topological power sort -/

/-- The `event_to_pl` loop: sender power level for every node of the graph. -/
def computePowerLevels (room_id : String) (lookup : String → Option Event) :
    List String → Except String (List (String × Int))
  | [] => .ok []
  | eid :: rest =>
    match _get_power_level_for_sender room_id eid lookup with
    | .error e => .error e
    | .ok pl =>
      match computePowerLevels room_id lookup rest with
      | .error e => .error e
      | .ok m => .ok ((eid, pl) :: m)

/-- `_get_power_order` evaluated for every node: `(-pl, origin_server_ts,
event_id)`.  The Python subscript `event_map[event_id]` raises on a miss;
nodes of the built graph have all been loaded, so `event_to_pl` lookup is
total on them and the key tuples compare lexicographically via `tripLtB`. -/
def powerOrderKeys (lookup : String → Option Event) (event_to_pl : List (String × Int)) :
    List String → Except String (List (String × (Int × Nat × String)))
  | [] => .ok []
  | eid :: rest =>
    match lookup eid with
    | none => .error ("KeyError " ++ eid)
    | some ev =>
      match powerOrderKeys lookup event_to_pl rest with
      | .error e => .error e
      | .ok m => .ok ((eid, ((aget eid event_to_pl).getD 0 |> Neg.neg, ev.origin_server_ts, eid)) :: m)

/-- Strict lexicographic comparison of `(-power, ts, event_id)` triples
(Python tuple `<`). -/
def tripLtB (a b : Int × Nat × String) : Bool :=
  decide (a.1 < b.1) ||
    (decide (a.1 = b.1) &&
      (decide (a.2.1 < b.2.1) || (decide (a.2.1 = b.2.1) && strLtb a.2.2 b.2.2)))

/-- `_reverse_topological_power_sort`. -/
def _reverse_topological_power_sort (room_id : String) (event_ids : List String)
    (lookup : String → Option Event) (auth_diff : List String) (fuel : Nat) :
    Except String (List String) :=
  match buildPowerGraph room_id lookup auth_diff fuel event_ids [] with
  | .error e => .error e
  | .ok graph =>
    match computePowerLevels room_id lookup (gkeys graph) with
    | .error e => .error e
    | .ok event_to_pl =>
      match powerOrderKeys lookup event_to_pl (gkeys graph) with
      | .error e => .error e
      | .ok keymap =>
        .ok (lexicographical_topological_sort graph
          (fun eid => (aget eid keymap).getD (0, 0, eid)) tripLtB)

/-! ### Iterative auth checks -/

/-- First half of the auth-context construction: load each auth event of
the candidate (`allow_none=True`); a missing one is logged and skipped, a
loaded one enters the context under its own `(type, state_key)` unless it
was rejected. -/
def buildAuthEvents (room_id : String) (lookup : String → Option Event) :
    List String → List (StateKey × Event) → Except String (List (StateKey × Event))
  | [], acc => .ok acc
  | aid :: rest, acc =>
    match _get_event room_id aid lookup true with
    | .error e => .error e
    | .ok none => buildAuthEvents room_id lookup rest acc
    | .ok (some ev) =>
      if ev.rejected_reason = none then
        buildAuthEvents room_id lookup rest (aset (ev.type, ev.state_key) ev acc)
      else buildAuthEvents room_id lookup rest acc

/-- Second half: for each state key in `auth_types_for_event`, overwrite
the context with the event the running resolved state names, when that
event exists (fatal if it cannot be loaded) and is not rejected. -/
def overlayResolvedAuth (room_id : String) (lookup : String → Option Event)
    (resolved_state : StateMap) :
    List StateKey → List (StateKey × Event) → Except String (List (StateKey × Event))
  | [], acc => .ok acc
  | key :: rest, acc =>
    match aget key resolved_state with
    | none => overlayResolvedAuth room_id lookup resolved_state rest acc
    | some ev_id =>
      match _get_event room_id ev_id lookup false with
      | .error e => .error e
      | .ok none => .error ("Unknown event " ++ ev_id)
      | .ok (some ev) =>
        if ev.rejected_reason = none then
          overlayResolvedAuth room_id lookup resolved_state rest (aset key ev acc)
        else overlayResolvedAuth room_id lookup resolved_state rest acc

/-- The candidate loop of `_iterative_auth_checks`: look the candidate up
(`event_map[event_id]`), build its auth context, run the authorization
predicate; on normal return record the candidate in the running state, on
`AuthError` drop it, on any other exception abort. -/
def iterAuthLoop (room_id room_version : String) (lookup : String → Option Event)
    (api : EventAuthAPI) : List String → StateMap → Except String StateMap
  | [], resolved_state => .ok resolved_state
  | event_id :: rest, resolved_state =>
    match lookup event_id with
    | none => .error ("KeyError " ++ event_id)
    | some event =>
      match buildAuthEvents room_id lookup event.auth_event_ids [] with
      | .error e => .error e
      | .ok auth_events1 =>
        match overlayResolvedAuth room_id lookup resolved_state
            (api.auth_types_for_event event) auth_events1 with
        | .error e => .error e
        | .ok auth_events =>
          match api.check room_version event auth_events with
          | .allowed =>
            iterAuthLoop room_id room_version lookup api rest
              (aset (event.type, event.state_key) event_id resolved_state)
          | .authError _ => iterAuthLoop room_id room_version lookup api rest resolved_state
          | .fatal msg => .error msg

/-- `_iterative_auth_checks`.  `KNOWN_ROOM_VERSIONS[room_version]` raises
`KeyError` for an unknown version. -/
def _iterative_auth_checks (room_id room_version : String) (event_ids : List String)
    (base_state : StateMap) (lookup : String → Option Event) (api : EventAuthAPI) :
    Except String StateMap :=
  if room_version ∈ api.known_room_versions then
    iterAuthLoop room_id room_version lookup api event_ids base_state
  else .error ("KeyError " ++ room_version)

/-! ### Mainline sort -/

/-- The `while pl:` loop of `_mainline_sort`: append the current power
event id, then follow the first `(PowerLevels, "")` event in its auth
list.  The accumulator collects in reverse, so it is reversed on exit;
Python truthiness makes both `None` and the empty string end the walk. -/
def buildMainline (room_id : String) (lookup : String → Option Event) :
    Nat → Option String → List String → Except String (List String)
  | _, none, acc => .ok acc.reverse
  | 0, some _, _ => .error ("mainline walk fuel exhausted")
  | fuel + 1, some pl, acc =>
    if pl = "" then .ok acc.reverse
    else
      match _get_event room_id pl lookup false with
      | .error e => .error e
      | .ok none => .error ("Unknown event " ++ pl)
      | .ok (some pl_ev) =>
        match findPLAuthPair room_id lookup pl_ev.auth_event_ids with
        | .error e => .error e
        | .ok next => buildMainline room_id lookup fuel (next.map Prod.fst) (pl :: acc)

/-- `{ev_id: i + 1 for i, ev_id in enumerate(reversed(mainline))}`. -/
def mainlineMapOf (mainline : List String) : List (String × Nat) :=
  mainline.reverse.enum.map (fun p => (p.2, p.1 + 1))

/-- The `while event:` loop of `_get_mainline_depth_for_event`: return the
mainline depth as soon as the current event is in the mainline map,
otherwise replace the event by the first `(PowerLevels, "")` event of its
auth list; no power level auth event means depth 0. -/
def mainlineDepthLoop (room_id : String) (lookup : String → Option Event)
    (mainline_map : List (String × Nat)) : Nat → Option Event → Except String Nat
  | _, none => .ok 0
  | 0, some _ => .error ("mainline depth fuel exhausted")
  | fuel + 1, some ev =>
    match aget ev.event_id mainline_map with
    | some depth => .ok depth
    | none =>
      match findPLAuthPair room_id lookup ev.auth_event_ids with
      | .error e => .error e
      | .ok next => mainlineDepthLoop room_id lookup mainline_map fuel (next.map Prod.snd)

/-- `_get_mainline_depth_for_event`; the room id is the event's own. -/
def _get_mainline_depth_for_event (fuel : Nat) (event : Event)
    (mainline_map : List (String × Nat)) (lookup : String → Option Event) :
    Except String Nat :=
  mainlineDepthLoop event.room_id lookup mainline_map fuel (some event)

/-- The `order_map` loop of `_mainline_sort`: for every candidate id the
key `(depth, origin_server_ts, ev_id)`; the Python `event_map[ev_id]`
subscript raises on a miss. -/
def mainlineOrderKeys (lookup : String → Option Event)
    (mainline_map : List (String × Nat)) (fuel : Nat) :
    List String → Except String (List (String × (Nat × Nat × String)))
  | [] => .ok []
  | ev_id :: rest =>
    match lookup ev_id with
    | none => .error ("KeyError " ++ ev_id)
    | some ev =>
      match _get_mainline_depth_for_event fuel ev mainline_map lookup with
      | .error e => .error e
      | .ok depth =>
        match mainlineOrderKeys lookup mainline_map fuel rest with
        | .error e => .error e
        | .ok m => .ok ((ev_id, (depth, ev.origin_server_ts, ev_id)) :: m)

/-- Non-strict lexicographic comparison of `(depth, ts, event_id)` triples
(Python tuple `<=`, as used by the stable `list.sort`). -/
def mainLeB (a b : Nat × Nat × String) : Bool :=
  decide (a.1 < b.1) ||
    (decide (a.1 = b.1) &&
      (decide (a.2.1 < b.2.1) ||
        (decide (a.2.1 = b.2.1) && (strLtb a.2.2 b.2.2 || decide (a.2.2 = b.2.2)))))

/-- `_mainline_sort`. -/
def _mainline_sort (room_id : String) (event_ids : List String)
    (resolved_power_event_id : Option String) (lookup : String → Option Event)
    (fuel : Nat) : Except String (List String) :=
  match event_ids with
  | [] => .ok []
  | _ :: _ =>
    match buildMainline room_id lookup fuel resolved_power_event_id [] with
    | .error e => .error e
    | .ok mainline =>
      let mainline_map := mainlineMapOf mainline
      match mainlineOrderKeys lookup mainline_map fuel event_ids with
      | .error e => .error e
      | .ok order_map =>
        .ok (List.insertionSort (fun a b =>
          mainLeB ((aget a order_map).getD (0, 0, a)) ((aget b order_map).getD (0, 0, b)) = true)
          event_ids)

/-! ### Top level: `resolve_events_with_store` -/

/-- `d.update(other)` for Python dicts. -/
def dictUpdate {α β : Type} [DecidableEq α] (d other : List (α × β)) : List (α × β) :=
  other.foldl (fun m kv => aset kv.1 kv.2 m) d

/-- `resolve_events_with_store`: the v2 state resolution pipeline.
`event_map_in` is the caller-seeded event memo (`None` becomes the empty
dict); `fuel` bounds the lazily-fetched-graph loops, whose exhaustion is an
`.error`, so every `.ok` result is one the Python run also produces. -/
def resolve_events_with_store (room_id room_version : String)
    (state_sets : List StateMap) (event_map_in : Option (List (String × Event)))
    (store : StateResolutionStore) (api : EventAuthAPI) (fuel : Nat) :
    Except String StateMap :=
  let event_map0 := event_map_in.getD []
  let sep := _seperate state_sets
  let unconflicted_state := sep.1
  let conflicted_state := sep.2
  if conflicted_state.isEmpty then .ok unconflicted_state
  else
    let auth_diff := _get_auth_chain_difference state_sets store
    let full_conflicted_set0 :=
      ((conflicted_state.flatMap (fun p => p.2)) ++ auth_diff).dedup
    let fetched := (full_conflicted_set0.filter (fun eid => (aget eid event_map0).isNone)).filterMap
      (fun eid => (store.events eid).map (fun ev => (eid, ev)))
    let event_map := event_map0 ++ fetched
    match event_map.find? (fun p => decide (p.2.room_id ≠ room_id)) with
    | some p =>
      .error ("Attempting to state-resolve for room " ++ room_id ++ " with event " ++
        p.2.event_id ++ " which is in " ++ p.2.room_id)
    | none =>
      let full_conflicted_set := full_conflicted_set0.filter
        (fun eid => (aget eid event_map).isSome)
      let lookup := fun eid => (aget eid event_map).orElse (fun _ => store.events eid)
      let power_events := full_conflicted_set.filter (fun eid =>
        ((aget eid event_map).map _is_power_event).getD false)
      match _reverse_topological_power_sort room_id power_events lookup auth_diff fuel with
      | .error e => .error e
      | .ok sorted_power_events =>
        match _iterative_auth_checks room_id room_version sorted_power_events
            unconflicted_state lookup api with
        | .error e => .error e
        | .ok resolved_state1 =>
          let leftover_events := full_conflicted_set.filter
            (fun eid => decide (eid ∉ sorted_power_events))
          let pl := aget (EventTypes.PowerLevels, "") resolved_state1
          match _mainline_sort room_id leftover_events pl lookup fuel with
          | .error e => .error e
          | .ok leftover_sorted =>
            match _iterative_auth_checks room_id room_version leftover_sorted
                resolved_state1 lookup api with
            | .error e => .error e
            | .ok resolved_state2 => .ok (dictUpdate resolved_state2 unconflicted_state)

/-! ## Separator lemmas -/

/-- The value set `_seperate` collects for a key: the per-input lookups,
deduplicated, absence as `none`. -/
def sepVals (state_sets : List StateMap) (key : StateKey) : List (Option String) :=
  (state_sets.map (fun s => aget key s)).dedup

theorem sepGo_fst_sublist (state_sets : List StateMap) :
    ∀ keys : List StateKey, List.Sublist (akeys (sepGo state_sets keys).1) keys := by
  intro keys
  induction keys with
  | nil => simp [sepGo, akeys]
  | cons key rest ih =>
    simp only [sepGo]
    by_cases hl : ((state_sets.map (fun s => aget key s)).dedup).length = 1
    · simp only [if_pos hl]
      match hv : (state_sets.map (fun s => aget key s)).dedup, hl with
      | [some v], _ => exact (List.cons_sublist_cons.mpr ih).trans (List.Sublist.refl _) |>.trans (List.Sublist.refl _)
      | [none], _ => exact ih.trans (List.sublist_cons_self _ _)
    · simp only [if_neg hl]
      exact ih.trans (List.sublist_cons_self _ _)

theorem sepGo_snd_sublist (state_sets : List StateMap) :
    ∀ keys : List StateKey, List.Sublist (akeys (sepGo state_sets keys).2) keys := by
  intro keys
  induction keys with
  | nil => simp [sepGo, akeys]
  | cons key rest ih =>
    simp only [sepGo]
    by_cases hl : ((state_sets.map (fun s => aget key s)).dedup).length = 1
    · simp only [if_pos hl]
      match hv : (state_sets.map (fun s => aget key s)).dedup, hl with
      | [some v], _ => exact ih.trans (List.sublist_cons_self _ _)
      | [none], _ => exact ih.trans (List.sublist_cons_self _ _)
    · simp only [if_neg hl]
      exact List.cons_sublist_cons.mpr ih

theorem sepGo_aget_of_not_mem (state_sets : List StateMap) {keys : List StateKey}
    {key : StateKey} (h : key ∉ keys) :
    aget key (sepGo state_sets keys).1 = none ∧ aget key (sepGo state_sets keys).2 = none :=
  ⟨aget_eq_none_of_not_mem_akeys (fun hm => h ((sepGo_fst_sublist state_sets keys).subset hm)),
   aget_eq_none_of_not_mem_akeys (fun hm => h ((sepGo_snd_sublist state_sets keys).subset hm))⟩

theorem sepGo_aget_of_mem (state_sets : List StateMap) {keys : List StateKey}
    {key : StateKey} (hnd : keys.Nodup) (hmem : key ∈ keys) :
    ((∀ v, sepVals state_sets key = [some v] →
        aget key (sepGo state_sets keys).1 = some v ∧
          aget key (sepGo state_sets keys).2 = none)
      ∧ (sepVals state_sets key = [none] →
        aget key (sepGo state_sets keys).1 = none ∧
          aget key (sepGo state_sets keys).2 = none)
      ∧ ((sepVals state_sets key).length ≠ 1 →
        aget key (sepGo state_sets keys).1 = none ∧
          aget key (sepGo state_sets keys).2 =
            some ((sepVals state_sets key).filterMap id))) := by
  induction keys with
  | nil => cases hmem
  | cons k rest ih =>
    rcases List.mem_cons.mp hmem with rfl | hmem'
    · have hrest : key ∉ rest := (List.nodup_cons.mp hnd).1
      have hbase := @sepGo_aget_of_not_mem state_sets rest _ hrest
      refine ⟨?_, ?_, ?_⟩
      · intro v hv
        simp only [sepGo, sepVals] at *
        rw [hv]
        simp [aget, hbase.2]
      · intro hv
        simp only [sepGo, sepVals] at *
        rw [hv]
        simp [hbase.1, hbase.2]
      · intro hlen
        simp only [sepGo, sepVals] at *
        simp only [if_neg hlen]
        simp [aget, hbase.1]
    · have hk : k ≠ key := by
        rintro rfl
        exact (List.nodup_cons.mp hnd).1 hmem'
      have ihh := ih (List.nodup_cons.mp hnd).2 hmem'
      refine ⟨?_, ?_, ?_⟩
      · intro v hv
        have h1 := (ihh.1 v hv).1
        have h2 := (ihh.1 v hv).2
        simp only [sepGo]
        by_cases hl : ((state_sets.map (fun s => aget k s)).dedup).length = 1
        · simp only [if_pos hl]
          match hw : (state_sets.map (fun s => aget k s)).dedup, hl with
          | [some w], _ => exact ⟨by simpa [aget, hk] using h1, h2⟩
          | [none], _ => exact ⟨h1, h2⟩
        · simp only [if_neg hl]
          exact ⟨h1, by simpa [aget, hk] using h2⟩
      · intro hv
        have h1 := (ihh.2.1 hv).1
        have h2 := (ihh.2.1 hv).2
        simp only [sepGo]
        by_cases hl : ((state_sets.map (fun s => aget k s)).dedup).length = 1
        · simp only [if_pos hl]
          match hw : (state_sets.map (fun s => aget k s)).dedup, hl with
          | [some w], _ => exact ⟨by simpa [aget, hk] using h1, h2⟩
          | [none], _ => exact ⟨h1, h2⟩
        · simp only [if_neg hl]
          exact ⟨h1, by simpa [aget, hk] using h2⟩
      · intro hlen
        have h1 := (ihh.2.2 hlen).1
        have h2 := (ihh.2.2 hlen).2
        simp only [sepGo]
        by_cases hl : ((state_sets.map (fun s => aget k s)).dedup).length = 1
        · simp only [if_pos hl]
          match hw : (state_sets.map (fun s => aget k s)).dedup, hl with
          | [some w], _ => exact ⟨by simpa [aget, hk] using h1, h2⟩
          | [none], _ => exact ⟨h1, h2⟩
        · simp only [if_neg hl]
          exact ⟨h1, by simpa [aget, hk] using h2⟩

/-- A key present in some input has a non-null entry in its value set. -/
theorem sepVals_mem_some {state_sets : List StateMap} {key : StateKey}
    (h : ∃ s ∈ state_sets, (aget key s).isSome) :
    ∃ v, some v ∈ sepVals state_sets key := by
  obtain ⟨s, hs, hsome⟩ := h
  obtain ⟨v, hv⟩ := Option.isSome_iff_exists.mp hsome
  refine ⟨v, ?_⟩
  simp only [sepVals, List.mem_dedup, List.mem_map]
  exact ⟨s, hs, by rw [hv]⟩

theorem union_keys_mem_iff {state_sets : List StateMap} {key : StateKey} :
    key ∈ (state_sets.flatMap (fun s => s.map Prod.fst)).dedup ↔
      ∃ s ∈ state_sets, (aget key s).isSome := by
  simp only [List.mem_dedup, List.mem_flatMap]
  constructor
  · rintro ⟨s, hs, hk⟩
    exact ⟨s, hs, aget_isSome_of_mem_akeys (by simpa [akeys] using hk)⟩
  · rintro ⟨s, hs, hk⟩
    exact ⟨s, hs, by simpa [akeys] using mem_akeys_of_aget_isSome hk⟩

/-! ## Concrete fixtures used by witness checks -/

/-- An event with only the structurally relevant fields set. -/
def exEvent (eid room ty sk snd : String) (ts : Nat) (auths : List String) : Event :=
  { event_id := eid, room_id := room, type := ty, state_key := sk, sender := snd,
    origin_server_ts := ts, content_users := [], content_users_default := none,
    content_creator := none, auth_event_ids := auths, rejected_reason := none,
    membership := some ("join") }

/-- A store with no events and an empty auth chain difference. -/
def exStore : StateResolutionStore :=
  { events := fun _ => none, auth_chain_difference := fun _ => [] }

/-- A permissive room-version interface for room version 1. -/
def exApi : EventAuthAPI :=
  { known_room_versions := [("1")], auth_types_for_event := fun _ => [],
    check := fun _ _ _ => .allowed }

/-! ## Claim C7: the separator -/

/-- Claim C7: for every ordered sequence of input StateMaps, the separator
assigns each StateKey appearing in any input to exactly one of its two
outputs: to unconflicted with the single agreed event id when the set of
values over all inputs (absence counted as null) has size one, and
otherwise to conflicted with the candidate set equal to that value set
with null removed; in particular a key present in some inputs and absent
in others is conflicted even when all present values agree. -/
theorem claim_C7 (state_sets : List StateMap) (key : StateKey) :
    ((¬ ∃ s ∈ state_sets, (aget key s).isSome) →
        aget key (_seperate state_sets).1 = none ∧
          aget key (_seperate state_sets).2 = none)
    ∧ ((∃ s ∈ state_sets, (aget key s).isSome) →
        (((aget key (_seperate state_sets).1).isSome ∧
            aget key (_seperate state_sets).2 = none)
          ∨ (aget key (_seperate state_sets).1 = none ∧
              (aget key (_seperate state_sets).2).isSome)))
    ∧ (∀ v, sepVals state_sets key = [some v] →
        aget key (_seperate state_sets).1 = some v ∧
          aget key (_seperate state_sets).2 = none)
    ∧ ((∃ s ∈ state_sets, (aget key s).isSome) →
        (sepVals state_sets key).length ≠ 1 →
        aget key (_seperate state_sets).1 = none ∧
          aget key (_seperate state_sets).2 =
            some ((sepVals state_sets key).filterMap id))
    ∧ ((∃ s ∈ state_sets, (aget key s).isSome) →
        (∃ s ∈ state_sets, aget key s = none) →
        (aget key (_seperate state_sets).2).isSome) := by
  have hnd : ((state_sets.flatMap (fun s => s.map Prod.fst)).dedup).Nodup :=
    List.nodup_dedup _
  simp only [_seperate]
  refine ⟨?_, ?_, ?_, ?_, ?_⟩
  · intro hno
    exact sepGo_aget_of_not_mem state_sets (union_keys_mem_iff.not.mpr hno)
  · intro hyes
    have hmem : key ∈ (state_sets.flatMap (fun s => s.map Prod.fst)).dedup :=
      union_keys_mem_iff.mpr hyes
    have hlem := sepGo_aget_of_mem state_sets hnd hmem
    obtain ⟨v, hv⟩ := sepVals_mem_some hyes
    by_cases hl : (sepVals state_sets key).length = 1
    · left
      match hw : sepVals state_sets key, hl with
      | [x], _ =>
        have : x = some v := by
          rw [hw] at hv
          exact (by simpa using hv : some v = x).symm
        subst this
        have := hlem.1 v hw
        exact ⟨by rw [this.1]; rfl, this.2⟩
    · right
      have := hlem.2.2 hl
      exact ⟨this.1, by rw [this.2]; rfl⟩
  · intro v hv
    have hyes : ∃ s ∈ state_sets, (aget key s).isSome := by
      have hv' : some v ∈ sepVals state_sets key := by rw [hv]; simp
      simp only [sepVals, List.mem_dedup, List.mem_map] at hv'
      obtain ⟨s, hs, hsv⟩ := hv'
      exact ⟨s, hs, by rw [hsv]; rfl⟩
    exact (sepGo_aget_of_mem state_sets hnd (union_keys_mem_iff.mpr hyes)).1 v hv
  · intro hyes hlen
    exact (sepGo_aget_of_mem state_sets hnd (union_keys_mem_iff.mpr hyes)).2.2 hlen
  · intro hyes hnone
    obtain ⟨v, hv⟩ := sepVals_mem_some hyes
    have hn : (none : Option String) ∈ sepVals state_sets key := by
      obtain ⟨s, hs, hsv⟩ := hnone
      simp only [sepVals, List.mem_dedup, List.mem_map]
      exact ⟨s, hs, hsv⟩
    have hlen : (sepVals state_sets key).length ≠ 1 := by
      intro h1
      match hw : sepVals state_sets key, h1 with
      | [x], _ =>
        rw [hw] at hv hn
        simp at hv hn
        rw [← hn] at hv
        cases hv
    have := (sepGo_aget_of_mem state_sets hnd (union_keys_mem_iff.mpr hyes)).2.2 hlen
    rw [this.2]
    rfl

/-! ## Claim C2: empty conflict short-circuit -/

theorem dedup_replicate {α : Type} [DecidableEq α] (x : α) :
    ∀ n : Nat, n ≠ 0 → (List.replicate n x).dedup = [x]
  | 0, h => absurd rfl h
  | 1, _ => rfl
  | n + 2, _ => by
    rw [List.replicate_succ, List.dedup_cons_of_mem (by simp), dedup_replicate x (n + 1) n.succ_ne_zero]

theorem map_aget_identical {state_sets : List StateMap} {s : StateMap}
    (h : ∀ t ∈ state_sets, t = s) (key : StateKey) :
    state_sets.map (fun t => aget key t) =
      List.replicate state_sets.length (aget key s) := by
  induction state_sets with
  | nil => rfl
  | cons t rest ih =>
    rw [List.map_cons, h t (List.mem_cons_self _ _), List.length_cons, List.replicate_succ,
      ih (fun u hu => h u (List.mem_cons_of_mem _ hu))]

theorem sepGo_snd_nil (state_sets : List StateMap) :
    ∀ keys : List StateKey,
      (∀ key ∈ keys, ((state_sets.map (fun s => aget key s)).dedup).length = 1) →
      (sepGo state_sets keys).2 = []
  | [], _ => rfl
  | key :: rest, h => by
    have h1 := h key (List.mem_cons_self _ _)
    have ih := sepGo_snd_nil state_sets rest (fun k hk => h k (List.mem_cons_of_mem _ hk))
    simp only [sepGo, if_pos h1]
    match hv : (state_sets.map (fun s => aget key s)).dedup, h1 with
    | [some v], _ => exact ih
    | [none], _ => exact ih

/-- Claim C2: whenever the conflicted state is empty after separation,
`resolve_events_with_store` returns the unconflicted state without
consulting the store; in particular a single input state set, and
identical input state sets, produce unconflicted state whose content is
the common input state set. -/
theorem claim_C2 (room_id room_version : String) (state_sets : List StateMap)
    (event_map_in : Option (List (String × Event))) (store store' : StateResolutionStore)
    (api : EventAuthAPI) (fuel : Nat) (s : StateMap) :
    ((_seperate state_sets).2 = [] →
      resolve_events_with_store room_id room_version state_sets event_map_in store api fuel
        = .ok (_seperate state_sets).1
      ∧ resolve_events_with_store room_id room_version state_sets event_map_in store api fuel
        = resolve_events_with_store room_id room_version state_sets event_map_in store' api fuel)
    ∧ (state_sets ≠ [] → (∀ t ∈ state_sets, t = s) →
        (_seperate state_sets).2 = [] ∧
          ∀ key, aget key (_seperate state_sets).1 = aget key s)
    ∧ (state_sets = [s] →
        (_seperate state_sets).2 = [] ∧
          ∀ key, aget key (_seperate state_sets).1 = aget key s) := by
  have main : state_sets ≠ [] → (∀ t ∈ state_sets, t = s) →
      (_seperate state_sets).2 = [] ∧
        ∀ key, aget key (_seperate state_sets).1 = aget key s := by
    intro hne hall
    have hs_mem : s ∈ state_sets := by
      match state_sets, hne with
      | t :: rest, _ => rw [← hall t (List.mem_cons_self _ _)]; exact List.mem_cons_self _ _
    have hlen0 : state_sets.length ≠ 0 := fun h => hne (List.length_eq_zero.mp h)
    have hvals : ∀ key : StateKey, sepVals state_sets key = [aget key s] := by
      intro key
      rw [sepVals, map_aget_identical hall key, dedup_replicate _ _ hlen0]
    constructor
    · exact sepGo_snd_nil state_sets _ (fun key _ => by
        have := hvals key
        rw [sepVals] at this
        rw [this]
        rfl)
    · intro key
      by_cases hmem : ∃ t ∈ state_sets, (aget key t).isSome
      · obtain ⟨t, ht, hsome⟩ := hmem
        rw [hall t ht] at hsome
        obtain ⟨v, hv⟩ := Option.isSome_iff_exists.mp hsome
        have hvk : sepVals state_sets key = [some v] := by rw [hvals key, hv]
        have := (sepGo_aget_of_mem state_sets (List.nodup_dedup _)
          (union_keys_mem_iff.mpr ⟨t, ht, by rw [hall t ht, hv]; rfl⟩)).1 v hvk
        rw [_seperate, this.1, hv]
      · have hnotin : key ∉ (state_sets.flatMap (fun u => u.map Prod.fst)).dedup :=
          fun hm => hmem (union_keys_mem_iff.mp hm)
        have h2 := sepGo_aget_of_not_mem state_sets hnotin
        have hs_none : aget key s = none := by
          cases hsv : aget key s with
          | none => rfl
          | some v => exact absurd ⟨s, hs_mem, by rw [hsv]; rfl⟩ hmem
        rw [_seperate, h2.1, hs_none]
  refine ⟨?_, main, ?_⟩
  · intro h
    constructor
    · simp [resolve_events_with_store, h]
    · simp [resolve_events_with_store, h]
  · intro h
    subst h
    exact main (by simp) (by simp)

/-- Witness for C2: a single input state set is returned unchanged, with a
store that holds nothing at all. -/
theorem claim_C2_witness :
    resolve_events_with_store ("r") ("1")
        [[(((("m.room.member"), ("@a")) : StateKey), ("e1"))]] none exStore exApi 50
      = .ok (_seperate [[(((("m.room.member"), ("@a")) : StateKey), ("e1"))]]).1 :=
  ((claim_C2 ("r") ("1") [[(((("m.room.member"), ("@a")) : StateKey), ("e1"))]] none
      exStore exStore exApi 50 [(((("m.room.member"), ("@a")) : StateKey), ("e1"))]).1
    ((claim_C2 ("r") ("1") [[(((("m.room.member"), ("@a")) : StateKey), ("e1"))]] none
        exStore exStore exApi 50 [(((("m.room.member"), ("@a")) : StateKey), ("e1"))]).2.2
      rfl).1).1

/-! ## Claim C1: unconflicted state survives into the result -/

/-- Claim C10: if the conflicted state is non-empty,
`resolve_events_with_store` raises whenever any event in the event memo
after the bulk fetch — including caller-seeded events never referenced by
any state set, conflicted candidate or auth-difference member — has a
room id different from the resolution room, and no resolved state is
returned. -/
theorem claim_C10 (room_id room_version : String) (state_sets : List StateMap)
    (event_map_in : Option (List (String × Event))) (store : StateResolutionStore)
    (api : EventAuthAPI) (fuel : Nat)
    (hconf : (_seperate state_sets).2 ≠ [])
    (k : String) (ev : Event)
    (hmem : (k, ev) ∈ event_map_in.getD [] ++
      ((((_seperate state_sets).2.flatMap (fun p => p.2)) ++
          _get_auth_chain_difference state_sets store).dedup.filter
        (fun eid => (aget eid (event_map_in.getD [])).isNone)).filterMap
        (fun eid => (store.events eid).map (fun e => (eid, e))))
    (hroom : ev.room_id ≠ room_id) :
    ∃ e, resolve_events_with_store room_id room_version state_sets event_map_in store api fuel
      = .error e := by
  have hempty : ((_seperate state_sets).2).isEmpty = false := by
    cases hc : (_seperate state_sets).2 with
    | nil => exact absurd hc hconf
    | cons a t => rfl
  simp only [resolve_events_with_store, hempty, Bool.false_eq_true, if_false]
  set memo := event_map_in.getD [] with hmemo
  cases hfind : (memo ++
      ((((_seperate state_sets).2.flatMap (fun p => p.2)) ++
          _get_auth_chain_difference state_sets store).dedup.filter
        (fun eid => (aget eid memo).isNone)).filterMap
        (fun eid => (store.events eid).map (fun e => (eid, e)))).find?
      (fun p => decide (p.2.room_id ≠ room_id)) with
  | none =>
    exfalso
    have := List.find?_eq_none.mp hfind (k, ev) hmem
    simp at this
    exact hroom this
  | some q => exact ⟨_, rfl⟩

/-- A store whose response for the conflicted candidate `e2` lies in
another room, so the bulk fetch itself seeds the memo with a cross-room
event. -/
def wstoreC : StateResolutionStore :=
  { events := fun eid =>
      if eid = ("e1") then
        some (exEvent ("e1") ("r") ("m.room.member") ("@a") ("@a") 10 [])
      else if eid = ("e2") then
        some (exEvent ("e2") ("other_room") ("m.room.member") ("@a") ("@a") 20 [])
      else none,
    auth_chain_difference := fun _ => [] }

/-- Witness for C10: a conflicted pair of state sets whose candidate `e2`
is store-fetched from another room makes the resolution fail, with an
empty caller memo. -/
theorem claim_C10_witness :
    ∃ e, resolve_events_with_store ("r") ("1")
        [[(((("m.room.member"), ("@a")) : StateKey), ("e1"))],
         [(((("m.room.member"), ("@a")) : StateKey), ("e2"))]]
        none wstoreC exApi 50 = .error e :=
  claim_C10 ("r") ("1")
    [[(((("m.room.member"), ("@a")) : StateKey), ("e1"))],
     [(((("m.room.member"), ("@a")) : StateKey), ("e2"))]]
    none wstoreC exApi 50 (by decide) ("e2")
    (exEvent ("e2") ("other_room") ("m.room.member") ("@a") ("@a") 20 [])
    (by decide) (by decide)

/-! ## Claim C5: sender power level -/

/-- Spec-side reading of §4.5 step 1: the first event among the auth ids
that loads and is a `(PowerLevels, "")` event, with its id. -/
def specFindPLPair (lookup : String → Option Event) : List String → Option (String × Event)
  | [] => none
  | aid :: rest =>
    match lookup aid with
    | none => specFindPLPair lookup rest
    | some aev =>
      if (aev.type, aev.state_key) = (EventTypes.PowerLevels, "") then some (aid, aev)
      else specFindPLPair lookup rest

/-- Spec-side reading of §4.5 step 2: the first event among the auth ids
that loads and is a `(Create, "")` event. -/
def specFindCreate (lookup : String → Option Event) : List String → Option Event
  | [] => none
  | aid :: rest =>
    match lookup aid with
    | none => specFindCreate lookup rest
    | some aev =>
      if (aev.type, aev.state_key) = (EventTypes.Create, "") then some aev
      else specFindCreate lookup rest

/-- The power level the claim describes: `users[sender]` from the first
PowerLevels auth event when present, else `users_default` when present,
else 0; with no PowerLevels auth event, 100 when the first Create auth
event names the sender as creator, 0 when it names someone else, and 0
when neither is found. -/
def powerLevelSpec (lookup : String → Option Event) (event : Event) : Int :=
  match specFindPLPair lookup event.auth_event_ids with
  | some pl =>
    match aget event.sender pl.2.content_users with
    | some level => level
    | none =>
      match pl.2.content_users_default with
      | some d => d
      | none => 0
  | none =>
    match specFindCreate lookup event.auth_event_ids with
    | some cr => if cr.content_creator = some event.sender then 100 else 0
    | none => 0

theorem findPLAuthPair_ok (room_id : String) (lookup : String → Option Event) :
    ∀ aids : List String,
      (∀ aid ∈ aids, ((lookup aid).map Event.room_id).getD room_id = room_id) →
      findPLAuthPair room_id lookup aids = .ok (specFindPLPair lookup aids)
  | [], _ => rfl
  | aid :: rest, h => by
    have hrest := fun a ha => h a (List.mem_cons_of_mem _ ha)
    have hhd := h aid (List.mem_cons_self _ _)
    simp only [findPLAuthPair, specFindPLPair, _get_event]
    cases hl : lookup aid with
    | none => exact findPLAuthPair_ok room_id lookup rest hrest
    | some aev =>
      rw [hl] at hhd
      simp at hhd
      simp only [hhd, if_true, eq_self_iff_true]
      by_cases hpl : (aev.type, aev.state_key) = (EventTypes.PowerLevels, "")
      · simp [hpl]
      · simp only [if_neg hpl]
        exact findPLAuthPair_ok room_id lookup rest hrest

theorem findCreatorLevel_ok (room_id : String) (lookup : String → Option Event)
    (sender : String) :
    ∀ aids : List String,
      (∀ aid ∈ aids, ((lookup aid).map Event.room_id).getD room_id = room_id) →
      findCreatorLevel room_id lookup sender aids = .ok
        (match specFindCreate lookup aids with
          | some cr => if cr.content_creator = some sender then 100 else 0
          | none => 0)
  | [], _ => rfl
  | aid :: rest, h => by
    have hrest := fun a ha => h a (List.mem_cons_of_mem _ ha)
    have hhd := h aid (List.mem_cons_self _ _)
    simp only [findCreatorLevel, specFindCreate, _get_event]
    cases hl : lookup aid with
    | none => exact findCreatorLevel_ok room_id lookup sender rest hrest
    | some aev =>
      rw [hl] at hhd
      simp at hhd
      simp only [hhd, if_true, eq_self_iff_true]
      by_cases hcr : (aev.type, aev.state_key) = (EventTypes.Create, "")
      · simp only [if_pos hcr]
        by_cases hc : aev.content_creator = some sender
        · simp [hc]
        · simp [hc]
      · simp only [if_neg hcr]
        exact findCreatorLevel_ok room_id lookup sender rest hrest

/-- Claim C5: `_get_power_level_for_sender` returns exactly the value the
specification describes, on every event whose loadable auth events are in
the resolution room (the function's normal-return precondition). -/
theorem claim_C5 (room_id event_id : String) (lookup : String → Option Event)
    (event : Event) (hev : lookup event_id = some event)
    (hroom : event.room_id = room_id)
    (hauth : ∀ aid ∈ event.auth_event_ids,
      ((lookup aid).map Event.room_id).getD room_id = room_id) :
    _get_power_level_for_sender room_id event_id lookup
      = .ok (powerLevelSpec lookup event) := by
  simp only [_get_power_level_for_sender, _get_event, hev, if_pos hroom]
  rw [findPLAuthPair_ok room_id lookup event.auth_event_ids hauth]
  simp only [powerLevelSpec]
  cases hpl : specFindPLPair lookup event.auth_event_ids with
  | none =>
    rw [findCreatorLevel_ok room_id lookup event.sender event.auth_event_ids hauth]
  | some pr =>
    obtain ⟨paid, pl⟩ := pr
    cases hu : aget event.sender pl.content_users with
    | some level => simp [hu]
    | none =>
      cases hd : pl.content_users_default with
      | some d => simp [hu, hd, Option.getD]
      | none => simp [hu, hd, Option.getD]

/-- Witness for C5: a sender with `users[sender] = 42` in the PowerLevels
event among the auth events. -/
theorem claim_C5_witness :
    _get_power_level_for_sender ("r") ("x")
        (fun eid =>
          if eid = ("x") then some (exEvent ("x") ("r") ("m.room.member") ("@a") ("@a") 30
            [("c"), ("p")])
          else if eid = ("p") then some
            { exEvent ("p") ("r") ("m.room.power_levels") ("") ("@a") 20 [("c")] with
                content_users := [(("@a"), 42)] }
          else if eid = ("c") then some
            { exEvent ("c") ("r") ("m.room.create") ("") ("@a") 10 [] with
                content_creator := some ("@a") }
          else none)
      = .ok 42 := by
  rw [claim_C5 ("r") ("x") _
    (exEvent ("x") ("r") ("m.room.member") ("@a") ("@a") 30 [("c"), ("p")])
    (by decide) (by decide) (by decide)]
  decide

/-! ## Claim C9: shape of the power-sort graph -/

theorem aget_append {α β : Type} [DecidableEq α] (k : α) (l₁ l₂ : List (α × β)) :
    aget k (l₁ ++ l₂) =
      match aget k l₁ with
      | some v => some v
      | none => aget k l₂ := by
  induction l₁ with
  | nil => rfl
  | cons kv rest ih =>
    obtain ⟨k0, v0⟩ := kv
    by_cases hk : k0 = k
    · simp [aget, hk]
    · simp [aget, hk, ih]

theorem gsetdefault_of_isSome {g : Graph} {eid : String} (h : (aget eid g).isSome) :
    gsetdefault g eid = g := by
  simp [gsetdefault, h]

theorem gsetdefault_of_none {g : Graph} {eid : String} (h : aget eid g = none) :
    gsetdefault g eid = g ++ [(eid, [])] := by
  simp [gsetdefault, h]

theorem gaddEdge_of_none {g : Graph} {eid : String} (aid : String)
    (h : aget eid g = none) : gaddEdge g eid aid = g ++ [(eid, [aid])] := by
  simp [gaddEdge, h]

theorem gaddEdge_of_mem {g : Graph} {eid aid : String} {edges : List String}
    (h : aget eid g = some edges) (hm : aid ∈ edges) : gaddEdge g eid aid = g := by
  simp [gaddEdge, h, hm]

theorem gaddEdge_of_not_mem {g : Graph} {eid aid : String} {edges : List String}
    (h : aget eid g = some edges) (hm : aid ∉ edges) :
    gaddEdge g eid aid = aset eid (edges ++ [aid]) g := by
  simp [gaddEdge, h, hm]

/-- `EdgesIn g auth_diff`: every recorded edge set points into `auth_diff`. -/
def EdgesIn (g : Graph) (auth_diff : List String) : Prop :=
  ∀ n es, aget n g = some es → ∀ v ∈ es, v ∈ auth_diff

theorem edgesIn_append_single {g : Graph} {auth_diff : List String}
    (hg : EdgesIn g auth_diff) {eid : String} {es0 : List String}
    (hes : ∀ v ∈ es0, v ∈ auth_diff) : EdgesIn (g ++ [(eid, es0)]) auth_diff := by
  intro n es h
  rw [aget_append] at h
  cases hag : aget n g with
  | some es1 =>
    rw [hag] at h
    cases h
    exact hg n _ hag
  | none =>
    rw [hag] at h
    simp only [aget] at h
    split at h
    · cases h
      exact hes
    · cases h

theorem edgesIn_aset {g : Graph} {auth_diff : List String}
    (hg : EdgesIn g auth_diff) {eid : String} {es0 : List String}
    (hes : ∀ v ∈ es0, v ∈ auth_diff) : EdgesIn (aset eid es0 g) auth_diff := by
  intro n es h
  by_cases hne : n = eid
  · subst hne
    rw [aget_aset_self] at h
    cases h
    exact hes
  · rw [aget_aset_ne _ _ hne] at h
    exact hg n es h

theorem edgesIn_gsetdefault {g : Graph} {auth_diff : List String}
    (hg : EdgesIn g auth_diff) (eid : String) : EdgesIn (gsetdefault g eid) auth_diff := by
  cases hag : aget eid g with
  | some es => rw [gsetdefault_of_isSome (by rw [hag]; rfl)]; exact hg
  | none =>
    rw [gsetdefault_of_none hag]
    exact edgesIn_append_single hg (fun v hv => absurd hv (List.not_mem_nil v))

theorem edgesIn_gaddEdge {g : Graph} {auth_diff : List String}
    (hg : EdgesIn g auth_diff) (eid : String) {aid : String} (haid : aid ∈ auth_diff) :
    EdgesIn (gaddEdge g eid aid) auth_diff := by
  cases hag : aget eid g with
  | none =>
    rw [gaddEdge_of_none aid hag]
    exact edgesIn_append_single hg (fun v hv => by
      rcases List.mem_singleton.mp hv with rfl
      exact haid)
  | some edges =>
    by_cases hm : aid ∈ edges
    · rw [gaddEdge_of_mem hag hm]
      exact hg
    · rw [gaddEdge_of_not_mem hag hm]
      exact edgesIn_aset hg (fun v hv => by
        rcases List.mem_append.mp hv with hv | hv
        · exact hg eid edges hag v hv
        · rcases List.mem_singleton.mp hv with rfl
          exact haid)

theorem edgesIn_gaddEdge_fold {auth_diff : List String} (eid : String) :
    ∀ (aids : List String) (g : Graph),
      (∀ a ∈ aids, a ∈ auth_diff) → EdgesIn g auth_diff →
      EdgesIn (aids.foldl (fun g aid => gaddEdge g eid aid) g) auth_diff
  | [], _, _, hg => hg
  | a :: rest, g, ha, hg =>
    edgesIn_gaddEdge_fold eid rest (gaddEdge g eid a)
      (fun x hx => ha x (List.mem_cons_of_mem _ hx))
      (edgesIn_gaddEdge hg eid (ha a (List.mem_cons_self _ _)))

theorem gkeys_append {g : Graph} {kv : String × List String} :
    gkeys (g ++ [kv]) = gkeys g ++ [kv.1] := by
  simp [gkeys]

theorem gkeys_aset {eid : String} {es : List String} :
    ∀ (g : Graph) {n : String}, n ∈ gkeys (aset eid es g) → n ∈ gkeys g ∨ n = eid
  | [], n, h => by simpa [aset, gkeys] using h
  | (k0, es0) :: rest, n, h => by
    by_cases hk : k0 = eid
    · subst hk
      simp [aset, gkeys] at h ⊢
      tauto
    · simp only [aset, if_neg hk, gkeys, List.map_cons, List.mem_cons] at h ⊢
      rcases h with h | h
      · exact Or.inl (Or.inl h)
      · rcases gkeys_aset rest h with h2 | h2
        · exact Or.inl (Or.inr h2)
        · exact Or.inr h2

theorem gkeys_gsetdefault {g : Graph} {eid n : String}
    (h : n ∈ gkeys (gsetdefault g eid)) : n ∈ gkeys g ∨ n = eid := by
  cases hag : aget eid g with
  | some es =>
    rw [gsetdefault_of_isSome (by rw [hag]; rfl)] at h
    exact Or.inl h
  | none =>
    rw [gsetdefault_of_none hag, gkeys_append] at h
    rcases List.mem_append.mp h with h | h
    · exact Or.inl h
    · exact Or.inr (List.mem_singleton.mp h)

theorem gkeys_gaddEdge {g : Graph} {eid aid n : String}
    (h : n ∈ gkeys (gaddEdge g eid aid)) : n ∈ gkeys g ∨ n = eid := by
  cases hag : aget eid g with
  | none =>
    rw [gaddEdge_of_none aid hag, gkeys_append] at h
    rcases List.mem_append.mp h with h | h
    · exact Or.inl h
    · exact Or.inr (List.mem_singleton.mp h)
  | some edges =>
    by_cases hm : aid ∈ edges
    · rw [gaddEdge_of_mem hag hm] at h
      exact Or.inl h
    · rw [gaddEdge_of_not_mem hag hm] at h
      exact gkeys_aset _ h

theorem gkeys_gaddEdge_fold {eid : String} :
    ∀ (aids : List String) (g : Graph) {n : String},
      n ∈ gkeys (aids.foldl (fun g aid => gaddEdge g eid aid) g) →
      n ∈ gkeys g ∨ n = eid
  | [], _, _, h => Or.inl h
  | a :: rest, g, n, h => by
    rcases gkeys_gaddEdge_fold rest (gaddEdge g eid a) h with h2 | h2
    · exact gkeys_gaddEdge h2
    · exact Or.inr h2

theorem buildGraphLoop_keys {room_id : String} {lookup : String → Option Event}
    {auth_diff : List String} :
    ∀ (fuel : Nat) (stack : List String) (g G : Graph),
      buildGraphLoop room_id lookup auth_diff fuel stack g = .ok G →
      ∀ n ∈ gkeys G, n ∈ gkeys g ∨ n ∈ stack ∨ n ∈ auth_diff
  | fuel, [], g, G, h => by
    cases fuel with
    | zero => cases h; intro n hn; exact Or.inl hn
    | succ f => cases h; intro n hn; exact Or.inl hn
  | 0, _ :: _, _, _, h => by cases h
  | fuel + 1, eid :: stack, g, G, h => by
    simp only [buildGraphLoop] at h
    split at h
    · cases h
    · cases h
    · intro n hn
      have ih := buildGraphLoop_keys fuel _ _ G h n hn
      rcases ih with hk | hs | hd
      · rcases gkeys_gaddEdge_fold _ _ hk with hk2 | hk2
        · rcases gkeys_gsetdefault hk2 with hk3 | hk3
          · exact Or.inl hk3
          · exact Or.inr (Or.inl (hk3 ▸ List.mem_cons_self _ _))
        · exact Or.inr (Or.inl (hk2 ▸ List.mem_cons_self _ _))
      · rcases List.mem_append.mp hs with hs | hs
        · right; right
          have h1 := List.mem_reverse.mp hs
          have h2 := (List.mem_filter.mp (List.mem_filter.mp h1).1).2
          exact of_decide_eq_true h2
        · exact Or.inr (Or.inl (List.mem_cons_of_mem _ hs))
      · exact Or.inr (Or.inr hd)

theorem buildGraphLoop_edges {room_id : String} {lookup : String → Option Event}
    {auth_diff : List String} :
    ∀ (fuel : Nat) (stack : List String) (g G : Graph),
      buildGraphLoop room_id lookup auth_diff fuel stack g = .ok G →
      EdgesIn g auth_diff → EdgesIn G auth_diff
  | fuel, [], g, G, h, hg => by
    cases fuel with
    | zero => cases h; exact hg
    | succ f => cases h; exact hg
  | 0, _ :: _, _, _, h, _ => by cases h
  | fuel + 1, eid :: stack, g, G, h, hg => by
    simp only [buildGraphLoop] at h
    split at h
    · cases h
    · cases h
    · refine buildGraphLoop_edges fuel _ _ G h ?_
      refine edgesIn_gaddEdge_fold eid _ _ ?_ (edgesIn_gsetdefault hg eid)
      intro a ha
      exact of_decide_eq_true (List.mem_filter.mp ha).2

theorem buildPowerGraph_keys {room_id : String} {lookup : String → Option Event}
    {auth_diff : List String} {fuel : Nat} :
    ∀ (event_ids : List String) (g G : Graph),
      buildPowerGraph room_id lookup auth_diff fuel event_ids g = .ok G →
      ∀ n ∈ gkeys G, n ∈ gkeys g ∨ n ∈ event_ids ∨ n ∈ auth_diff
  | [], g, G, h => by
    cases h
    intro n hn
    exact Or.inl hn
  | eid :: rest, g, G, h => by
    simp only [buildPowerGraph] at h
    split at h
    · cases h
    · rename_i g2 heq
      intro n hn
      rcases buildPowerGraph_keys rest g2 G h n hn with hk | hk | hk
      · rcases buildGraphLoop_keys fuel [eid] g g2 heq n hk with h2 | h2 | h2
        · exact Or.inl h2
        · exact Or.inr (Or.inl (List.mem_cons.mpr (Or.inl (List.mem_singleton.mp h2))))
        · exact Or.inr (Or.inr h2)
      · exact Or.inr (Or.inl (List.mem_cons_of_mem _ hk))
      · exact Or.inr (Or.inr hk)

theorem buildPowerGraph_edges {room_id : String} {lookup : String → Option Event}
    {auth_diff : List String} {fuel : Nat} :
    ∀ (event_ids : List String) (g G : Graph),
      buildPowerGraph room_id lookup auth_diff fuel event_ids g = .ok G →
      EdgesIn g auth_diff → EdgesIn G auth_diff
  | [], g, G, h, hg => by cases h; exact hg
  | eid :: rest, g, G, h, hg => by
    simp only [buildPowerGraph] at h
    split at h
    · cases h
    · rename_i g2 heq
      exact buildPowerGraph_edges rest g2 G h
        (buildGraphLoop_edges fuel [eid] g g2 heq hg)

/-- Counterexample to C9 as stated: a single start event outside an empty
auth difference still becomes a key of the built graph. -/
theorem claim_C9_cex :
    buildPowerGraph ("r")
        (fun eid => if eid = ("s")
          then some (exEvent ("s") ("r") ("m.room.create") ("") ("@a") 1 [])
          else none)
        [] 50 [("s")] [] = .ok [(("s"), [])]
    ∧ ("s") ∈ gkeys [((("s") : String), ([] : List String))]
    ∧ ("s") ∉ ([] : List String) := by
  refine ⟨by decide, by decide, by decide⟩

/-- Claim C9, amended: in the graph built for the reverse-topological
power sort, every key is a starting power event id or a member of the auth
difference (nodes outside the auth difference other than the starting
events are never added as keys), and every edge of the graph points to a
node in the auth difference. -/
theorem claim_C9 (room_id : String) (lookup : String → Option Event)
    (auth_diff : List String) (fuel : Nat) (event_ids : List String) (G : Graph)
    (hok : buildPowerGraph room_id lookup auth_diff fuel event_ids [] = .ok G) :
    (∀ n ∈ gkeys G, n ∈ event_ids ∨ n ∈ auth_diff)
    ∧ (∀ n es, aget n G = some es → ∀ v ∈ es, v ∈ auth_diff) := by
  constructor
  · intro n hn
    rcases buildPowerGraph_keys event_ids [] G hok n hn with h | h | h
    · cases h
    · exact Or.inl h
    · exact Or.inr h
  · exact buildPowerGraph_edges event_ids [] G hok
      (fun n es h => by cases h)

/-- Witness for the amended C9: the concrete two-node run where the start
event `s` pulls the auth-difference member `d` into the graph. -/
theorem claim_C9_witness :
    (∀ n ∈ gkeys [((("s") : String), [("d")]), ((("d") : String), ([] : List String))],
      n ∈ [("s")] ∨ n ∈ [("d")])
    ∧ (∀ n es,
        aget n [((("s") : String), [("d")]), ((("d") : String), ([] : List String))] = some es →
        ∀ v ∈ es, v ∈ [("d")]) :=
  claim_C9 ("r")
    (fun eid =>
      if eid = ("s")
        then some (exEvent ("s") ("r") ("m.room.create") ("") ("@a") 1 [("d")])
      else if eid = ("d")
        then some (exEvent ("d") ("r") ("m.room.power_levels") ("") ("@a") 0 [])
      else none)
    [("d")] 50 [("s")]
    [((("s") : String), [("d")]), ((("d") : String), ([] : List String))]
    (by decide)

/-! ## Claim C8: iterative auth check step behaviour -/

/-- Claim C8: during `_iterative_auth_checks`, for each candidate in
order: a passing authorization predicate updates the running state at the
candidate's StateKey with its event id; an authorization error drops the
candidate leaving the state unchanged; any other error aborts the
resolution; and an auth-event id that cannot be loaded is skipped (the
auth context is the one built without it) rather than causing failure. -/
theorem claim_C8 (room_id room_version : String) (lookup : String → Option Event)
    (api : EventAuthAPI) (event_id : String) (event : Event) (rest : List String)
    (st : StateMap) (ctx1 ctx : List (StateKey × Event)) :
    (lookup event_id = some event →
      buildAuthEvents room_id lookup event.auth_event_ids [] = .ok ctx1 →
      overlayResolvedAuth room_id lookup st (api.auth_types_for_event event) ctx1 = .ok ctx →
      ((api.check room_version event ctx = .allowed →
          iterAuthLoop room_id room_version lookup api (event_id :: rest) st
            = iterAuthLoop room_id room_version lookup api rest
                (aset (event.type, event.state_key) event_id st))
        ∧ (∀ msg, api.check room_version event ctx = .authError msg →
            iterAuthLoop room_id room_version lookup api (event_id :: rest) st
              = iterAuthLoop room_id room_version lookup api rest st)
        ∧ (∀ msg, api.check room_version event ctx = .fatal msg →
            iterAuthLoop room_id room_version lookup api (event_id :: rest) st
              = .error msg)))
    ∧ (∀ (aids1 aids2 : List String) (aid : String) (acc : List (StateKey × Event)),
        lookup aid = none →
        buildAuthEvents room_id lookup (aids1 ++ aid :: aids2) acc
          = buildAuthEvents room_id lookup (aids1 ++ aids2) acc) := by
  constructor
  · intro hev hb ho
    refine ⟨?_, ?_, ?_⟩
    · intro hc
      simp only [iterAuthLoop, hev, hb, ho, hc]
    · intro msg hc
      simp only [iterAuthLoop, hev, hb, ho, hc]
    · intro msg hc
      simp only [iterAuthLoop, hev, hb, ho, hc]
  · intro aids1
    induction aids1 with
    | nil =>
      intro aids2 aid acc hnone
      simp only [List.nil_append, buildAuthEvents, _get_event, hnone, if_pos]
    | cons a as ih =>
      intro aids2 aid acc hnone
      simp only [List.cons_append, buildAuthEvents]
      cases hg : _get_event room_id a lookup true with
      | error e => rfl
      | ok oev =>
        cases oev with
        | none => exact ih aids2 aid acc hnone
        | some ev =>
          by_cases hr : ev.rejected_reason = none
          · simp only [if_pos hr]
            exact ih aids2 aid _ hnone
          · simp only [if_neg hr]
            exact ih aids2 aid acc hnone

/-- Witness for C8: a passing candidate is recorded in the running state. -/
theorem claim_C8_witness :
    iterAuthLoop ("r") ("1")
        (fun eid => if eid = ("e1")
          then some (exEvent ("e1") ("r") ("m.room.member") ("@a") ("@a") 10 [])
          else none)
        exApi [("e1")] []
      = iterAuthLoop ("r") ("1")
          (fun eid => if eid = ("e1")
            then some (exEvent ("e1") ("r") ("m.room.member") ("@a") ("@a") 10 [])
            else none)
          exApi []
          (aset ((("m.room.member"), ("@a")) : StateKey) ("e1") []) :=
  ((claim_C8 ("r") ("1")
      (fun eid => if eid = ("e1")
        then some (exEvent ("e1") ("r") ("m.room.member") ("@a") ("@a") 10 [])
        else none)
      exApi ("e1") (exEvent ("e1") ("r") ("m.room.member") ("@a") ("@a") 10 [])
      [] [] [] []).1 (by decide) (by decide) (by decide)).1 (by decide)

/-! ## Claim C4: the lexicographic reverse topological sort -/

/-- Strict-total-order package for the key comparison used by the heap. -/
structure KeyOrder {κ : Type} (kLt : κ → κ → Bool) : Prop where
  irrefl : ∀ a, kLt a a = false
  trans : ∀ a b c, kLt a b = true → kLt b c = true → kLt a c = true
  total : ∀ a b, a = b ∨ kLt a b = true ∨ kLt b a = true

theorem KeyOrder.asymm {κ : Type} {kLt : κ → κ → Bool} (H : KeyOrder kLt)
    {a b : κ} (h : kLt a b = true) : kLt b a = false := by
  cases hh : kLt b a with
  | false => rfl
  | true =>
    have := H.trans a b a h hh
    rw [H.irrefl] at this
    cases this

theorem nodeLtB_trans {κ : Type} [DecidableEq κ] {key : String → κ}
    {kLt : κ → κ → Bool} (H : KeyOrder kLt) {a b c : String}
    (h₁ : nodeLtB key kLt a b = true) (h₂ : nodeLtB key kLt b c = true) :
    nodeLtB key kLt a c = true := by
  simp only [nodeLtB, Bool.or_eq_true, Bool.and_eq_true, decide_eq_true_eq] at h₁ h₂ ⊢
  rcases h₁ with h₁ | ⟨he₁, hs₁⟩
  · rcases h₂ with h₂ | ⟨he₂, hs₂⟩
    · exact Or.inl (H.trans _ _ _ h₁ h₂)
    · exact Or.inl (he₂ ▸ h₁)
  · rcases h₂ with h₂ | ⟨he₂, hs₂⟩
    · exact Or.inl (he₁ ▸ h₂)
    · exact Or.inr ⟨he₁.trans he₂, strLtb_trans hs₁ hs₂⟩

theorem nodeLtB_total {κ : Type} [DecidableEq κ] {key : String → κ}
    {kLt : κ → κ → Bool} (H : KeyOrder kLt) {a b : String} (hne : a ≠ b) :
    nodeLtB key kLt a b = true ∨ nodeLtB key kLt b a = true := by
  simp only [nodeLtB, Bool.or_eq_true, Bool.and_eq_true, decide_eq_true_eq]
  rcases H.total (key a) (key b) with he | h | h
  · rcases strLtb_total a b with h | h | h
    · exact absurd h hne
    · exact Or.inl (Or.inr ⟨he, h⟩)
    · exact Or.inr (Or.inr ⟨he.symm, h⟩)
  · exact Or.inl (Or.inl h)
  · exact Or.inr (Or.inl h)

theorem minNode_mem {κ : Type} [DecidableEq κ] {key : String → κ} {kLt : κ → κ → Bool} :
    ∀ {l : List String} {m : String}, minNode key kLt l = some m → m ∈ l
  | [], m, h => by cases h
  | n :: rest, m, h => by
    cases hr : minNode key kLt rest with
    | none =>
      simp only [minNode, hr] at h
      cases h
      exact List.mem_cons_self _ _
    | some m0 =>
      simp only [minNode, hr] at h
      by_cases hc : nodeLtB key kLt n m0 = true
      · rw [if_pos hc] at h
        cases h
        exact List.mem_cons_self _ _
      · rw [if_neg hc] at h
        cases h
        exact List.mem_cons_of_mem _ (minNode_mem hr)

theorem minNode_isSome {κ : Type} [DecidableEq κ] {key : String → κ} {kLt : κ → κ → Bool} :
    ∀ {l : List String}, l ≠ [] → (minNode key kLt l).isSome
  | [], h => absurd rfl h
  | n :: rest, _ => by
    cases hr : minNode key kLt rest with
    | none => simp [minNode, hr]
    | some m0 =>
      simp only [minNode, hr]
      by_cases hc : nodeLtB key kLt n m0 = true
      · rw [if_pos hc]
        rfl
      · rw [if_neg hc]
        rfl

theorem minNode_min {κ : Type} [DecidableEq κ] {key : String → κ} {kLt : κ → κ → Bool}
    (H : KeyOrder kLt) :
    ∀ {l : List String} {m : String}, minNode key kLt l = some m →
      ∀ x ∈ l, x ≠ m → nodeLtB key kLt m x = true
  | [], m, h => by cases h
  | n :: rest, m, h => by
    cases hr : minNode key kLt rest with
    | none =>
      simp only [minNode, hr] at h
      cases h
      intro x hx hne
      rcases List.mem_cons.mp hx with rfl | hx
      · exact absurd rfl hne
      · exfalso
        have hne2 : rest ≠ [] := by
          intro he
          rw [he] at hx
          cases hx
        have hs := @minNode_isSome _ _ key kLt rest hne2
        rw [hr] at hs
        cases hs
    | some m0 =>
      simp only [minNode, hr] at h
      by_cases hc : nodeLtB key kLt n m0 = true
      · rw [if_pos hc] at h
        cases h
        intro x hx hne
        rcases List.mem_cons.mp hx with rfl | hx
        · exact absurd rfl hne
        · by_cases hxm : x = m0
          · subst hxm
            exact hc
          · exact nodeLtB_trans H hc (minNode_min H hr x hx hxm)
      · rw [if_neg hc] at h
        cases h
        intro x hx hne
        rcases List.mem_cons.mp hx with rfl | hx
        · rcases @nodeLtB_total _ _ key kLt H m x (fun he => hne he.symm) with h2 | h2
          · exact h2
          · exact absurd h2 hc
        · exact minNode_min H hr x hx hne

theorem exists_rank_min (rank : String → Nat) :
    ∀ l : List String, l ≠ [] → ∃ m ∈ l, ∀ x ∈ l, rank m ≤ rank x
  | [], h => absurd rfl h
  | [n], _ => ⟨n, List.mem_singleton.mpr rfl, by
      intro x hx
      rcases List.mem_singleton.mp hx with rfl
      exact le_refl _⟩
  | n :: a :: t, _ => by
    obtain ⟨m, hm, hmin⟩ := exists_rank_min rank (a :: t) (by simp)
    by_cases hc : rank n ≤ rank m
    · refine ⟨n, List.mem_cons_self _ _, ?_⟩
      intro x hx
      rcases List.mem_cons.mp hx with rfl | hx
      · exact le_refl _
      · exact hc.trans (hmin x hx)
    · refine ⟨m, List.mem_cons_of_mem _ hm, ?_⟩
      intro x hx
      rcases List.mem_cons.mp hx with rfl | hx
      · exact le_of_lt (lt_of_not_le hc)
      · exact hmin x hx

theorem indexOf_lt_of_mem_take :
    ∀ (l : List String) (v : String) (j : Nat), v ∈ l.take j → l.indexOf v < j
  | [], v, j, h => by simp at h
  | a :: t, v, 0, h => by simp at h
  | a :: t, v, j + 1, h => by
    rcases List.mem_cons.mp (by simpa [List.take] using h) with rfl | h2
    · simp [List.indexOf_cons_self]
    · by_cases hv : v = a
      · subst hv
        simp [List.indexOf_cons_self]
      · have h3 := indexOf_lt_of_mem_take t v j h2
        rw [List.indexOf_cons_ne _ (fun he => hv he.symm)]
        omega

/-- Everything the topological sort loop guarantees: the emitted list is a
permutation of the remaining nodes; every emitted node has its out-edges
inside the earlier pops; and each emitted node is the heap-least among the
still-unemitted nodes that are eligible at that point. -/
theorem topoGo_spec {κ : Type} [DecidableEq κ] (edges : String → List String)
    (key : String → κ) (kLt : κ → κ → Bool) (H : KeyOrder kLt) (rank : String → Nat) :
    ∀ (fuel : Nat) (remaining popped : List String),
      remaining.length ≤ fuel →
      remaining.Nodup →
      (∀ n ∈ remaining, ∀ v ∈ edges n, v ∈ remaining ∨ v ∈ popped) →
      (∀ n ∈ remaining, ∀ v ∈ edges n, v ∈ remaining → rank v < rank n) →
      (topoGo edges key kLt fuel remaining popped).Perm remaining
      ∧ (∀ j (hj : j < (topoGo edges key kLt fuel remaining popped).length),
          ∀ v ∈ edges ((topoGo edges key kLt fuel remaining popped).get ⟨j, hj⟩),
            v ∈ popped ∨ v ∈ (topoGo edges key kLt fuel remaining popped).take j)
      ∧ (∀ j (hj : j < (topoGo edges key kLt fuel remaining popped).length),
          ∀ u ∈ remaining, u ∉ (topoGo edges key kLt fuel remaining popped).take j →
            (∀ v ∈ edges u,
              v ∈ popped ∨ v ∈ (topoGo edges key kLt fuel remaining popped).take j) →
            u = (topoGo edges key kLt fuel remaining popped).get ⟨j, hj⟩ ∨
              nodeLtB key kLt ((topoGo edges key kLt fuel remaining popped).get ⟨j, hj⟩) u
                = true) := by
  intro fuel
  induction fuel with
  | zero =>
    intro remaining popped hlen _ _ _
    have hnil : remaining = [] := List.length_eq_zero.mp (Nat.le_zero.mp hlen)
    subst hnil
    refine ⟨by simp [topoGo], ?_, ?_⟩
    · intro j hj
      simp [topoGo] at hj
    · intro j hj
      simp [topoGo] at hj
  | succ fuel ih =>
    intro remaining popped hlen hnd hinv hrank
    by_cases hrem : remaining = []
    · subst hrem
      refine ⟨by simp [topoGo, minNode], ?_, ?_⟩
      · intro j hj
        simp [topoGo, minNode] at hj
      · intro j hj
        simp [topoGo, minNode] at hj
    · -- the heap is nonempty: a rank-minimal remaining node is eligible
      have helig_ne : remaining.filter
          (fun n => (edges n).all (fun v => decide (v ∈ popped))) ≠ [] := by
        obtain ⟨m0, hm0, hmin0⟩ := exists_rank_min rank remaining hrem
        have : m0 ∈ remaining.filter (fun n => (edges n).all (fun v => decide (v ∈ popped))) := by
          rw [List.mem_filter]
          refine ⟨hm0, ?_⟩
          rw [List.all_eq_true]
          intro v hv
          rcases hinv m0 hm0 v hv with hvr | hvp
          · exact absurd (hrank m0 hm0 v hv hvr) (not_lt.mpr (hmin0 v hvr))
          · exact decide_eq_true hvp
        intro he
        rw [he] at this
        cases this
      obtain ⟨m, hmin⟩ := Option.isSome_iff_exists.mp (@minNode_isSome _ _ key kLt _ helig_ne)
      have hm_elig := minNode_mem hmin
      have hmr : m ∈ remaining := (List.mem_filter.mp hm_elig).1
      have hme : ∀ v ∈ edges m, v ∈ popped := by
        intro v hv
        have := (List.mem_filter.mp hm_elig).2
        rw [List.all_eq_true] at this
        exact of_decide_eq_true (this v hv)
      have hstep : topoGo edges key kLt (fuel + 1) remaining popped
          = m :: topoGo edges key kLt fuel (remaining.erase m) (m :: popped) := by
        simp only [topoGo, hmin]
      have hlen' : (remaining.erase m).length ≤ fuel := by
        have h1 := List.length_erase_of_mem hmr
        have h2 : 1 ≤ remaining.length := by
          cases remaining with
          | nil => exact absurd rfl hrem
          | cons a t => simp
        omega
      have hinv' : ∀ n ∈ remaining.erase m, ∀ v ∈ edges n,
          v ∈ remaining.erase m ∨ v ∈ m :: popped := by
        intro n hn v hv
        rcases hinv n (List.mem_of_mem_erase hn) v hv with hvr | hvp
        · by_cases hvm : v = m
          · exact Or.inr (hvm ▸ List.mem_cons_self _ _)
          · exact Or.inl ((List.mem_erase_of_ne hvm).mpr hvr)
        · exact Or.inr (List.mem_cons_of_mem _ hvp)
      have hrank' : ∀ n ∈ remaining.erase m, ∀ v ∈ edges n,
          v ∈ remaining.erase m → rank v < rank n := by
        intro n hn v hv hvr
        exact hrank n (List.mem_of_mem_erase hn) v hv (List.mem_of_mem_erase hvr)
      obtain ⟨ihA, ihB, ihC⟩ := ih (remaining.erase m) (m :: popped) hlen'
        (hnd.erase m) hinv' hrank'
      rw [hstep]
      refine ⟨?_, ?_, ?_⟩
      · exact (ihA.cons m).trans (List.perm_cons_erase hmr).symm
      · intro j hj v hv
        cases j with
        | zero =>
          exact Or.inl (hme v hv)
        | succ j =>
          have hj' : j < (topoGo edges key kLt fuel (remaining.erase m) (m :: popped)).length :=
            Nat.lt_of_succ_lt_succ hj
          rcases ihB j hj' v hv with hp | ht
          · rcases List.mem_cons.mp hp with rfl | hp
            · exact Or.inr (List.mem_cons_self _ _)
            · exact Or.inl hp
          · exact Or.inr (List.mem_cons_of_mem _ ht)
      · intro j hj u hu hutake hedge
        cases j with
        | zero =>
          have hu_elig : u ∈ remaining.filter
              (fun n => (edges n).all (fun v => decide (v ∈ popped))) := by
            rw [List.mem_filter]
            refine ⟨hu, ?_⟩
            rw [List.all_eq_true]
            intro v hv
            rcases hedge v hv with hvp | hvt
            · exact decide_eq_true hvp
            · cases hvt
          by_cases hum : u = m
          · exact Or.inl hum
          · exact Or.inr (minNode_min H hmin u hu_elig hum)
        | succ j =>
          have hj' : j < (topoGo edges key kLt fuel (remaining.erase m) (m :: popped)).length :=
            Nat.lt_of_succ_lt_succ hj
          have hum : u ≠ m := by
            intro he
            exact hutake (he ▸ List.mem_cons_self _ _)
          have hu' : u ∈ remaining.erase m := (List.mem_erase_of_ne hum).mpr hu
          have hutake' : u ∉ (topoGo edges key kLt fuel (remaining.erase m) (m :: popped)).take j :=
            fun hh => hutake (List.mem_cons_of_mem _ hh)
          have hedge' : ∀ v ∈ edges u, v ∈ m :: popped ∨
              v ∈ (topoGo edges key kLt fuel (remaining.erase m) (m :: popped)).take j := by
            intro v hv
            rcases hedge v hv with hvp | hvt
            · exact Or.inl (List.mem_cons_of_mem _ hvp)
            · rcases List.mem_cons.mp hvt with rfl | hvt
              · exact Or.inl (List.mem_cons_self _ _)
              · exact Or.inr hvt
          exact ihC j hj' u hu' hutake' hedge'

/-- Claim C4: on a finite acyclic graph (acyclicity witnessed by a rank
function decreasing along edges, with edge targets among the keys),
`lexicographical_topological_sort` emits every node exactly once; for
every edge the target is emitted before the source; and of two nodes that
are both eligible by the time the earlier of them is emitted, the one with
the strictly smaller key comes first. -/
theorem claim_C4 {κ : Type} [DecidableEq κ] (graph : Graph) (key : String → κ)
    (kLt : κ → κ → Bool) (H : KeyOrder kLt)
    (hnodup : (gkeys graph).Nodup)
    (hwf : ∀ n es, aget n graph = some es → ∀ v ∈ es, v ∈ gkeys graph)
    (rank : String → Nat)
    (hrank : ∀ n es, aget n graph = some es → ∀ v ∈ es, rank v < rank n) :
    (lexicographical_topological_sort graph key kLt).Perm (gkeys graph)
    ∧ (∀ u es v, aget u graph = some es → v ∈ es →
        (lexicographical_topological_sort graph key kLt).indexOf v
          < (lexicographical_topological_sort graph key kLt).indexOf u)
    ∧ (∀ u v k, u ∈ gkeys graph → v ∈ gkeys graph → u ≠ v →
        k ≤ (lexicographical_topological_sort graph key kLt).indexOf u →
        k ≤ (lexicographical_topological_sort graph key kLt).indexOf v →
        (∀ es w, aget u graph = some es → w ∈ es →
          w ∈ (lexicographical_topological_sort graph key kLt).take k) →
        (∀ es w, aget v graph = some es → w ∈ es →
          w ∈ (lexicographical_topological_sort graph key kLt).take k) →
        kLt (key u) (key v) = true →
        (lexicographical_topological_sort graph key kLt).indexOf u
          < (lexicographical_topological_sort graph key kLt).indexOf v) := by
  have hedges : ∀ n v, v ∈ (aget n graph).getD [] →
      ∃ es, aget n graph = some es ∧ v ∈ es := by
    intro n v hv
    cases hag : aget n graph with
    | none =>
      rw [hag] at hv
      simp at hv
    | some es =>
      rw [hag] at hv
      exact ⟨es, rfl, hv⟩
  obtain ⟨hA, hB, hC⟩ := topoGo_spec (fun n => (aget n graph).getD []) key kLt H rank
    (gkeys graph).length (gkeys graph) [] (le_refl _) hnodup
    (by
      intro n hn v hv
      obtain ⟨es, hes, hves⟩ := hedges n v hv
      exact Or.inl (hwf n es hes v hves))
    (by
      intro n hn v hv _
      obtain ⟨es, hes, hves⟩ := hedges n v hv
      exact hrank n es hes v hves)
  have hosort : lexicographical_topological_sort graph key kLt
      = topoGo (fun n => (aget n graph).getD []) key kLt
          (gkeys graph).length (gkeys graph) [] := rfl
  rw [hosort]
  set o := topoGo (fun n => (aget n graph).getD []) key kLt
    (gkeys graph).length (gkeys graph) [] with hodef
  refine ⟨hA, ?_, ?_⟩
  · intro u es v hes hves
    have humem : u ∈ o := hA.mem_iff.mpr
      (mem_akeys_of_aget_isSome (by rw [hes]; rfl))
    have hiu : o.indexOf u < o.length := List.indexOf_lt_length.mpr humem
    have hgetu : o.get ⟨o.indexOf u, hiu⟩ = u := by
      rw [List.get_eq_getElem]
      exact List.getElem_indexOf hiu
    have hv_in : v ∈ (fun n => (aget n graph).getD []) (o.get ⟨o.indexOf u, hiu⟩) := by
      rw [hgetu]
      simp only [hes, Option.getD_some]
      exact hves
    rcases hB (o.indexOf u) hiu v hv_in with hp | ht
    · cases hp
    · exact indexOf_lt_of_mem_take o v _ ht
  · intro u v k hu hv hne hku hkv hEu hEv hkey
    have humem : u ∈ o := hA.mem_iff.mpr hu
    have hvmem : v ∈ o := hA.mem_iff.mpr hv
    have hiu : o.indexOf u < o.length := List.indexOf_lt_length.mpr humem
    have hiv : o.indexOf v < o.length := List.indexOf_lt_length.mpr hvmem
    by_contra hcon
    have hivu : o.indexOf v < o.indexOf u := by
      rcases Nat.lt_trichotomy (o.indexOf u) (o.indexOf v) with h | h | h
      · exact absurd h hcon
      · exfalso
        apply hne
        have h1 : o.get ⟨o.indexOf u, hiu⟩ = u := by
          rw [List.get_eq_getElem]
          exact List.getElem_indexOf hiu
        have h2 : o.get ⟨o.indexOf v, hiv⟩ = v := by
          rw [List.get_eq_getElem]
          exact List.getElem_indexOf hiv
        rw [← h1, ← h2]
        congr 1
        exact Fin.ext h
      · exact h
    have hgetv : o.get ⟨o.indexOf v, hiv⟩ = v := by
      rw [List.get_eq_getElem]
      exact List.getElem_indexOf hiv
    have hutake : u ∉ o.take (o.indexOf v) := by
      intro hh
      exact absurd (indexOf_lt_of_mem_take o u _ hh) (not_lt.mpr (le_of_lt hivu))
    have htake_sub : ∀ w, w ∈ o.take k → w ∈ o.take (o.indexOf v) := by
      intro w hw
      have hkk : k ≤ o.indexOf v := hkv
      have : o.take k = (o.take (o.indexOf v)).take k := by
        rw [List.take_take]
        rw [min_eq_left hkk]
      rw [this] at hw
      exact List.take_subset _ _ hw
    have hedge : ∀ w ∈ (fun n => (aget n graph).getD []) u,
        w ∈ ([] : List String) ∨ w ∈ o.take (o.indexOf v) := by
      intro w hw
      obtain ⟨es, hes, hwes⟩ := hedges u w hw
      exact Or.inr (htake_sub w (hEu es w hes hwes))
    rcases hC (o.indexOf v) hiv u hu hutake hedge with heq | hlt
    · exact hne (heq.trans hgetv)
    · rw [hgetv] at hlt
      simp only [nodeLtB, Bool.or_eq_true, Bool.and_eq_true, decide_eq_true_eq] at hlt
      rcases hlt with hlt | ⟨heq2, _⟩
      · rw [H.asymm hkey] at hlt
        cases hlt
      · rw [heq2] at hkey
        rw [H.irrefl] at hkey
        cases hkey

/-- Witness for C4: the two-node graph `b -> a` with numeric keys. -/
theorem claim_C4_witness :
    (lexicographical_topological_sort
        [((("b") : String), [("a")]), ((("a") : String), ([] : List String))]
        (fun n => if n = ("a") then (5 : Nat) else 3)
        (fun a b => decide (a < b))).Perm
      (gkeys [((("b") : String), [("a")]), ((("a") : String), ([] : List String))]) :=
  (claim_C4
    [((("b") : String), [("a")]), ((("a") : String), ([] : List String))]
    (fun n => if n = ("a") then (5 : Nat) else 3)
    (fun a b => decide (a < b))
    { irrefl := fun a => by simp
      trans := fun a b c h1 h2 => by
        simp only [decide_eq_true_eq] at h1 h2 ⊢
        omega
      total := fun a b => by
        rcases Nat.lt_trichotomy a b with h | h | h
        · exact Or.inr (Or.inl (decide_eq_true h))
        · exact Or.inl h
        · exact Or.inr (Or.inr (decide_eq_true h)) }
    (by decide)
    (by
      intro n es h v hv
      simp only [aget] at h
      split at h
      · cases h
        rcases List.mem_singleton.mp hv with rfl
        decide
      · split at h
        · cases h
          cases hv
        · cases h)
    (fun n => if n = ("b") then 1 else 0)
    (by
      intro n es h v hv
      simp only [aget] at h
      split at h
      · cases h
        rcases List.mem_singleton.mp hv with rfl
        rename_i hb
        simp only [← hb]
        decide
      · split at h
        · cases h
          cases hv
        · cases h)).1

/-! ## Claim C6: the mainline sort -/

theorem mainLeB_refl (a : Nat × Nat × String) : mainLeB a a = true := by
  simp [mainLeB]

theorem mainLeB_total (a b : Nat × Nat × String) :
    mainLeB a b = true ∨ mainLeB b a = true := by
  simp only [mainLeB, Bool.or_eq_true, Bool.and_eq_true, decide_eq_true_eq]
  rcases Nat.lt_trichotomy a.1 b.1 with h1 | h1 | h1
  · exact Or.inl (Or.inl h1)
  · rcases Nat.lt_trichotomy a.2.1 b.2.1 with h2 | h2 | h2
    · exact Or.inl (Or.inr ⟨h1, Or.inl h2⟩)
    · rcases strLtb_total a.2.2 b.2.2 with h3 | h3 | h3
      · exact Or.inl (Or.inr ⟨h1, Or.inr ⟨h2, Or.inr h3⟩⟩)
      · exact Or.inl (Or.inr ⟨h1, Or.inr ⟨h2, Or.inl h3⟩⟩)
      · exact Or.inr (Or.inr ⟨h1.symm, Or.inr ⟨h2.symm, Or.inl h3⟩⟩)
    · exact Or.inr (Or.inr ⟨h1.symm, Or.inl h2⟩)
  · exact Or.inr (Or.inl h1)

theorem mainLeB_trans {a b c : Nat × Nat × String}
    (h₁ : mainLeB a b = true) (h₂ : mainLeB b c = true) : mainLeB a c = true := by
  simp only [mainLeB, Bool.or_eq_true, Bool.and_eq_true, decide_eq_true_eq] at h₁ h₂ ⊢
  rcases h₁ with h₁ | ⟨he₁, h₁⟩
  · rcases h₂ with h₂ | ⟨he₂, _⟩
    · exact Or.inl (h₁.trans h₂)
    · exact Or.inl (he₂ ▸ h₁)
  · rcases h₂ with h₂ | ⟨he₂, h₂⟩
    · exact Or.inl (he₁ ▸ h₂)
    · refine Or.inr ⟨he₁.trans he₂, ?_⟩
      rcases h₁ with h₁ | ⟨hf₁, h₁⟩
      · rcases h₂ with h₂ | ⟨hf₂, _⟩
        · exact Or.inl (h₁.trans h₂)
        · exact Or.inl (hf₂ ▸ h₁)
      · rcases h₂ with h₂ | ⟨hf₂, h₂⟩
        · exact Or.inl (hf₁ ▸ h₂)
        · refine Or.inr ⟨hf₁.trans hf₂, ?_⟩
          rcases h₁ with h₁ | h₁
          · rcases h₂ with h₂ | h₂
            · exact Or.inl (strLtb_trans h₁ h₂)
            · exact Or.inl (h₂ ▸ h₁)
          · rcases h₂ with h₂ | h₂
            · exact Or.inl (h₁ ▸ h₂)
            · exact Or.inr (h₁.trans h₂)

/-- Accumulator lemma for the mainline walk. -/
theorem buildMainline_acc (room_id : String) (lookup : String → Option Event) :
    ∀ (fuel : Nat) (pl : Option String) (acc : List String),
      buildMainline room_id lookup fuel pl acc
        = Except.map (fun W => acc.reverse ++ W) (buildMainline room_id lookup fuel pl [])
  | fuel, none, acc => by
    cases fuel <;> simp [buildMainline, Except.map]
  | 0, some pl, acc => by simp [buildMainline, Except.map]
  | fuel + 1, some pl, acc => by
    by_cases hp : pl = ""
    · simp [buildMainline, hp, Except.map]
    · cases hg : _get_event room_id pl lookup false with
      | error e => simp [buildMainline, hp, hg, Except.map]
      | ok oev =>
        cases oev with
        | none => simp [buildMainline, hp, hg, Except.map]
        | some pl_ev =>
          cases hf : findPLAuthPair room_id lookup pl_ev.auth_event_ids with
          | error e => simp [buildMainline, hp, hg, hf, Except.map]
          | ok next =>
            simp only [buildMainline, if_neg hp, hg, hf]
            rw [buildMainline_acc room_id lookup fuel (next.map Prod.fst) (pl :: acc),
              buildMainline_acc room_id lookup fuel (next.map Prod.fst) [pl]]
            cases buildMainline room_id lookup fuel (next.map Prod.fst) [] with
            | error e => simp [Except.map]
            | ok W => simp [Except.map]

/-- Fuel monotonicity of the mainline walk. -/
theorem buildMainline_mono (room_id : String) (lookup : String → Option Event) :
    ∀ (fuel fuel2 : Nat) (pl : Option String) (W : List String),
      fuel ≤ fuel2 →
      buildMainline room_id lookup fuel pl [] = .ok W →
      buildMainline room_id lookup fuel2 pl [] = .ok W
  | fuel, fuel2, none, W, _, h => by
    cases fuel2 <;> cases fuel <;> simpa [buildMainline] using h
  | 0, fuel2, some pl, W, _, h => by simp [buildMainline] at h
  | fuel + 1, fuel2, some pl, W, hle, h => by
    match fuel2, hle with
    | f2 + 1, hle2 =>
      by_cases hp : pl = ""
      · simp [buildMainline, hp] at h ⊢
        exact h
      · cases hg : _get_event room_id pl lookup false with
        | error e =>
          simp only [buildMainline, if_neg hp, hg] at h ⊢
          exact h
        | ok oev =>
          cases oev with
          | none =>
            simp only [buildMainline, if_neg hp, hg] at h ⊢
            exact h
          | some pl_ev =>
            cases hf : findPLAuthPair room_id lookup pl_ev.auth_event_ids with
            | error e =>
              simp only [buildMainline, if_neg hp, hg, hf] at h ⊢
              exact h
            | ok next =>
              simp only [buildMainline, if_neg hp, hg, hf] at h ⊢
              rw [buildMainline_acc room_id lookup fuel (next.map Prod.fst) [pl]] at h
              rw [buildMainline_acc room_id lookup f2 (next.map Prod.fst) [pl]]
              cases hW : buildMainline room_id lookup fuel (next.map Prod.fst) [] with
              | error e =>
                rw [hW] at h
                cases h
              | ok W0 =>
                rw [hW] at h
                rw [buildMainline_mono room_id lookup fuel f2 (next.map Prod.fst) W0
                  (Nat.le_of_succ_le_succ hle2) hW]
                exact h

/-- Every position of a successful mainline walk starts a successful walk
of its own, on the dropped suffix. -/
theorem buildMainline_suffix (room_id : String) (lookup : String → Option Event) :
    ∀ (fuel : Nat) (pl : Option String) (W : List String),
      buildMainline room_id lookup fuel pl [] = .ok W →
      ∀ i (hi : i < W.length),
        ∃ fi, fi ≤ fuel ∧
          buildMainline room_id lookup fi (some (W.get ⟨i, hi⟩)) [] = .ok (W.drop i)
  | fuel, none, W, h, i, hi => by
    have hW : W = [] := by
      cases fuel <;> simpa [buildMainline] using h.symm
    subst hW
    cases hi
  | 0, some pl, W, h, i, hi => by simp [buildMainline] at h
  | fuel + 1, some pl, W, h, i, hi => by
    by_cases hp : pl = ""
    · have hW : W = [] := by simpa [buildMainline, hp] using h.symm
      subst hW
      cases hi
    · cases hg : _get_event room_id pl lookup false with
      | error e =>
        simp [buildMainline, hp, hg] at h
      | ok oev =>
        cases oev with
        | none => simp [buildMainline, hp, hg] at h
        | some pl_ev =>
          cases hf : findPLAuthPair room_id lookup pl_ev.auth_event_ids with
          | error e => simp [buildMainline, hp, hg, hf] at h
          | ok next =>
            rw [show buildMainline room_id lookup (fuel + 1) (some pl) []
                = buildMainline room_id lookup fuel (next.map Prod.fst) [pl] by
              simp only [buildMainline, if_neg hp, hg, hf]] at h
            rw [buildMainline_acc room_id lookup fuel (next.map Prod.fst) [pl]] at h
            cases hW : buildMainline room_id lookup fuel (next.map Prod.fst) [] with
            | error e =>
              rw [hW] at h
              cases h
            | ok W0 =>
              rw [hW] at h
              simp only [Except.map] at h
              cases h
              cases i with
              | zero =>
                refine ⟨fuel + 1, le_refl _, ?_⟩
                show buildMainline room_id lookup (fuel + 1) (some pl) [] = _
                rw [show buildMainline room_id lookup (fuel + 1) (some pl) []
                    = buildMainline room_id lookup fuel (next.map Prod.fst) [pl] by
                  simp only [buildMainline, if_neg hp, hg, hf]]
                rw [buildMainline_acc room_id lookup fuel (next.map Prod.fst) [pl], hW]
                rfl
              | succ i =>
                have hi2 : i < W0.length := by
                  simpa using Nat.lt_of_succ_lt_succ hi
                obtain ⟨fi, hfi, hrun⟩ :=
                  buildMainline_suffix room_id lookup fuel (next.map Prod.fst) W0 hW i hi2
                exact ⟨fi, hfi.trans (Nat.le_succ _), hrun⟩

/-- A successful mainline walk never repeats an event id. -/
theorem buildMainline_nodup (room_id : String) (lookup : String → Option Event)
    (fuel : Nat) (pl : Option String) (W : List String)
    (h : buildMainline room_id lookup fuel pl [] = .ok W) : W.Nodup := by
  rw [List.nodup_iff_injective_get]
  rintro ⟨i, hi⟩ ⟨j, hj⟩ hij
  have key : ∀ a b (ha : a < W.length) (hb : b < W.length), a < b →
      W.get ⟨a, ha⟩ = W.get ⟨b, hb⟩ → False := by
    intro a b ha hb hab heq
    obtain ⟨fa, hfa, hruna⟩ := buildMainline_suffix room_id lookup fuel pl W h a ha
    obtain ⟨fb, hfb, hrunb⟩ := buildMainline_suffix room_id lookup fuel pl W h b hb
    have h1 := buildMainline_mono room_id lookup fa (fa + fb) _ _ (Nat.le_add_right _ _) hruna
    have h2 := buildMainline_mono room_id lookup fb (fa + fb) _ _ (Nat.le_add_left _ _) hrunb
    rw [heq] at h1
    rw [h1] at h2
    have hlen := congrArg List.length (Except.ok.inj h2)
    simp only [List.length_drop] at hlen
    omega
  apply Fin.ext
  rcases Nat.lt_trichotomy i j with hlt | heq | hlt
  · exact absurd hij (fun hh => key i j hi hj hlt hh)
  · exact heq
  · exact absurd hij.symm (fun hh => key j i hj hi hlt hh)

theorem aget_of_mem_nodupk {α β : Type} [DecidableEq α] :
    ∀ {l : List (α × β)} {k : α} {v : β}, NodupK l → (k, v) ∈ l → aget k l = some v
  | [], k, v, _, hm => by cases hm
  | (k0, v0) :: rest, k, v, hnd, hm => by
    rcases List.mem_cons.mp hm with heq | hm2
    · cases heq
      simp [aget]
    · have hnd2 : (k0 :: akeys rest).Nodup := hnd
      have hk : k0 ≠ k := by
        intro he
        subst he
        exact (List.nodup_cons.mp hnd2).1 (List.mem_map.mpr ⟨(k0, v), hm2, rfl⟩)
      simp only [aget, if_neg hk]
      exact aget_of_mem_nodupk ((List.nodup_cons.mp hnd2).2) hm2

theorem mainlineMapOf_nodupk {mainline : List String} (hnd : mainline.Nodup) :
    NodupK (mainlineMapOf mainline) := by
  have hkeys : akeys (mainlineMapOf mainline) = mainline.reverse := by
    simp only [mainlineMapOf, akeys, List.map_map]
    have : (Prod.fst ∘ fun p : Nat × String => (p.2, p.1 + 1))
        = Prod.snd := by
      funext p
      rfl
    rw [this, List.enum_map_snd]
  rw [NodupK, hkeys]
  exact List.nodup_reverse.mpr hnd

theorem mainlineMapOf_numbering {mainline : List String} (hnd : mainline.Nodup)
    (i : Nat) (hi : i < mainline.length) :
    aget (mainline.get ⟨i, hi⟩) (mainlineMapOf mainline)
      = some (mainline.length - i) := by
  have hk : mainline.length - 1 - i < mainline.reverse.length := by
    rw [List.length_reverse]
    omega
  have hk2 : mainline.length - 1 - i < mainline.reverse.enum.length := by
    rw [List.enum_length]
    exact hk
  have hk3 : mainline.length - 1 - i < (mainlineMapOf mainline).length := by
    rw [mainlineMapOf, List.length_map]
    exact hk2
  have hentry : (mainlineMapOf mainline).get ⟨mainline.length - 1 - i, hk3⟩
      = (mainline.get ⟨i, hi⟩, mainline.length - i) := by
    simp only [mainlineMapOf, List.get_eq_getElem, List.getElem_map, List.getElem_enum]
    have hrev : mainline.reverse.get ⟨mainline.length - 1 - i, hk⟩
        = mainline.get ⟨i, hi⟩ := by
      simp only [List.get_eq_getElem]
      rw [List.getElem_reverse]
      congr 1
      omega
    simp only [List.get_eq_getElem] at hrev
    rw [hrev]
    have : mainline.length - 1 - i + 1 = mainline.length - i := by omega
    rw [this]
  refine aget_of_mem_nodupk (mainlineMapOf_nodupk hnd) ?_
  rw [← hentry]
  exact List.get_mem _ _ _

theorem mainlineOrderKeys_spec (lookup : String → Option Event)
    (mm : List (String × Nat)) (fuel : Nat) :
    ∀ (ids : List String) (om : List (String × (Nat × Nat × String))),
      mainlineOrderKeys lookup mm fuel ids = .ok om →
      ∀ e ∈ ids, ∃ ev depth, lookup e = some ev
        ∧ _get_mainline_depth_for_event fuel ev mm lookup = .ok depth
        ∧ aget e om = some (depth, ev.origin_server_ts, e)
  | [], om, h => by
    intro e he
    cases he
  | e0 :: rest, om, h => by
    intro e he
    cases hl : lookup e0 with
    | none => simp [mainlineOrderKeys, hl] at h
    | some ev0 =>
      cases hd : _get_mainline_depth_for_event fuel ev0 mm lookup with
      | error er => simp [mainlineOrderKeys, hl, hd] at h
      | ok d0 =>
        cases hrest : mainlineOrderKeys lookup mm fuel rest with
        | error er => simp [mainlineOrderKeys, hl, hd, hrest] at h
        | ok m =>
          simp only [mainlineOrderKeys, hl, hd, hrest] at h
          cases h
          by_cases hee : e = e0
          · subst hee
            exact ⟨ev0, d0, hl, hd, by simp [aget]⟩
          · rcases List.mem_cons.mp he with heq | hmem
            · exact absurd heq hee
            · obtain ⟨ev, depth, h1, h2, h3⟩ :=
                mainlineOrderKeys_spec lookup mm fuel rest m hrest e hmem
              refine ⟨ev, depth, h1, h2, ?_⟩
              rw [aget, if_neg (fun he2 => hee he2.symm)]
              exact h3

theorem mainlineOrderKeys_third (lookup : String → Option Event)
    (mm : List (String × Nat)) (fuel : Nat) :
    ∀ (ids : List String) (om : List (String × (Nat × Nat × String))),
      mainlineOrderKeys lookup mm fuel ids = .ok om →
      ∀ e k, aget e om = some k → k.2.2 = e ∧
        ∃ ev depth, lookup e = some ev
          ∧ _get_mainline_depth_for_event fuel ev mm lookup = .ok depth
          ∧ k = (depth, ev.origin_server_ts, e)
  | [], om, h => by
    cases h
    intro e k hk
    cases hk
  | e0 :: rest, om, h => by
    intro e k hk
    cases hl : lookup e0 with
    | none => simp [mainlineOrderKeys, hl] at h
    | some ev0 =>
      cases hd : _get_mainline_depth_for_event fuel ev0 mm lookup with
      | error er => simp [mainlineOrderKeys, hl, hd] at h
      | ok d0 =>
        cases hrest : mainlineOrderKeys lookup mm fuel rest with
        | error er => simp [mainlineOrderKeys, hl, hd, hrest] at h
        | ok m =>
          simp only [mainlineOrderKeys, hl, hd, hrest] at h
          cases h
          by_cases hee : e0 = e
          · subst hee
            rw [aget, if_pos rfl] at hk
            cases hk
            exact ⟨rfl, ev0, d0, hl, hd, rfl⟩
          · rw [aget, if_neg hee] at hk
            exact mainlineOrderKeys_third lookup mm fuel rest m hrest e k hk

theorem mainlineDepthLoop_nil (room_id : String) (lookup : String → Option Event) :
    ∀ (fuel : Nat) (oev : Option Event) (d : Nat),
      mainlineDepthLoop room_id lookup [] fuel oev = .ok d → d = 0
  | fuel, none, d, h => by
    cases fuel <;> (cases h; rfl)
  | 0, some ev, d, h => by cases h
  | fuel + 1, some ev, d, h => by
    rw [show mainlineDepthLoop room_id lookup [] (fuel + 1) (some ev)
        = (match aget ev.event_id ([] : List (String × Nat)) with
          | some depth => .ok depth
          | none =>
            match findPLAuthPair room_id lookup ev.auth_event_ids with
            | .error e => .error e
            | .ok next => mainlineDepthLoop room_id lookup [] fuel (next.map Prod.snd))
      from rfl] at h
    cases hf : findPLAuthPair room_id lookup ev.auth_event_ids with
    | error er =>
      rw [show aget ev.event_id ([] : List (String × Nat)) = none from rfl, hf] at h
      cases h
    | ok next =>
      rw [show aget ev.event_id ([] : List (String × Nat)) = none from rfl, hf] at h
      exact mainlineDepthLoop_nil room_id lookup fuel (next.map Prod.snd) d h

/-- Claim C6: for every candidate list and resolved power-level id on
which `_mainline_sort` succeeds, the mainline map numbers the mainline
1, 2, 3, ... oldest first; every candidate gets the key `(depth,
origin_server_ts, event_id)` with the depth computed by the auth walk
(`_get_mainline_depth_for_event`), 0 when the walk reaches no mainline
event, in particular whenever the resolved power-level id is absent; and
the output is the candidates ordered ascending by that key. -/
theorem claim_C6 (room_id : String) (event_ids : List String) (pl : Option String)
    (lookup : String → Option Event) (fuel : Nat) (l : List String)
    (hne : event_ids ≠ [])
    (hok : _mainline_sort room_id event_ids pl lookup fuel = .ok l) :
    ∃ mainline order_map,
      buildMainline room_id lookup fuel pl [] = .ok mainline
      ∧ mainlineOrderKeys lookup (mainlineMapOf mainline) fuel event_ids = .ok order_map
      ∧ (∀ i (hi : i < mainline.length),
          aget (mainline.get ⟨i, hi⟩) (mainlineMapOf mainline)
            = some (mainline.length - i))
      ∧ (∀ e ∈ event_ids, ∃ ev depth, lookup e = some ev
          ∧ _get_mainline_depth_for_event fuel ev (mainlineMapOf mainline) lookup
              = .ok depth
          ∧ aget e order_map = some (depth, ev.origin_server_ts, e))
      ∧ (pl = none → mainline = [])
      ∧ (pl = none → ∀ e k, aget e order_map = some k → k.1 = 0)
      ∧ l.Perm event_ids
      ∧ l.Pairwise (fun a b =>
          mainLeB ((aget a order_map).getD (0, 0, a)) ((aget b order_map).getD (0, 0, b))
            = true) := by
  match event_ids, hne with
  | e0 :: rest, _ =>
    cases hm : buildMainline room_id lookup fuel pl [] with
    | error er => simp [_mainline_sort, hm] at hok
    | ok mainline =>
      cases ho : mainlineOrderKeys lookup (mainlineMapOf mainline) fuel (e0 :: rest) with
      | error er => simp [_mainline_sort, hm, ho] at hok
      | ok om =>
        simp only [_mainline_sort, hm, ho] at hok
        cases hok
        have hnd : mainline.Nodup := buildMainline_nodup room_id lookup fuel pl mainline hm
        refine ⟨mainline, om, rfl, ho, ?_, ?_, ?_, ?_, ?_, ?_⟩
        · intro i hi
          exact mainlineMapOf_numbering hnd i hi
        · exact mainlineOrderKeys_spec lookup (mainlineMapOf mainline) fuel (e0 :: rest) om ho
        · intro hpl
          subst hpl
          cases fuel with
          | zero =>
            have : mainline = [] := by simpa [buildMainline] using hm.symm
            exact this
          | succ f =>
            have : mainline = [] := by simpa [buildMainline] using hm.symm
            exact this
        · intro hpl e k hk
          subst hpl
          have hml : mainline = [] := by
            cases fuel with
            | zero => simpa [buildMainline] using hm.symm
            | succ f => simpa [buildMainline] using hm.symm
          subst hml
          obtain ⟨_, ev, depth, _, hdep, hkk⟩ :=
            mainlineOrderKeys_third lookup (mainlineMapOf []) fuel (e0 :: rest) om ho e k hk
          have : depth = 0 :=
            mainlineDepthLoop_nil ev.room_id lookup fuel (some ev) depth hdep
          rw [hkk, this]
        · exact List.perm_insertionSort _ _
        · haveI : IsTotal String (fun a b =>
              mainLeB ((aget a om).getD (0, 0, a)) ((aget b om).getD (0, 0, b)) = true) :=
            ⟨fun a b => mainLeB_total _ _⟩
          haveI : IsTrans String (fun a b =>
              mainLeB ((aget a om).getD (0, 0, a)) ((aget b om).getD (0, 0, b)) = true) :=
            ⟨fun a b c h1 h2 => mainLeB_trans h1 h2⟩
          exact List.sorted_insertionSort _ _

/-- Witness for C6: two events and no resolved power level; both depths
are 0 and the earlier timestamp sorts first. -/
theorem claim_C6_witness :
    ∃ mainline order_map,
      buildMainline ("r")
          (fun eid => if eid = ("e1")
            then some (exEvent ("e1") ("r") ("m.room.member") ("@a") ("@a") 10 [])
            else if eid = ("e2")
            then some (exEvent ("e2") ("r") ("m.room.member") ("@b") ("@b") 20 [])
            else none) 10 none [] = .ok mainline
      ∧ mainlineOrderKeys
          (fun eid => if eid = ("e1")
            then some (exEvent ("e1") ("r") ("m.room.member") ("@a") ("@a") 10 [])
            else if eid = ("e2")
            then some (exEvent ("e2") ("r") ("m.room.member") ("@b") ("@b") 20 [])
            else none)
          (mainlineMapOf mainline) 10 [("e2"), ("e1")] = .ok order_map
      ∧ (∀ i (hi : i < mainline.length),
          aget (mainline.get ⟨i, hi⟩) (mainlineMapOf mainline)
            = some (mainline.length - i))
      ∧ (∀ e ∈ [("e2"), ("e1")], ∃ ev depth,
          (fun eid => if eid = ("e1")
            then some (exEvent ("e1") ("r") ("m.room.member") ("@a") ("@a") 10 [])
            else if eid = ("e2")
            then some (exEvent ("e2") ("r") ("m.room.member") ("@b") ("@b") 20 [])
            else none) e = some ev
          ∧ _get_mainline_depth_for_event 10 ev (mainlineMapOf mainline)
              (fun eid => if eid = ("e1")
                then some (exEvent ("e1") ("r") ("m.room.member") ("@a") ("@a") 10 [])
                else if eid = ("e2")
                then some (exEvent ("e2") ("r") ("m.room.member") ("@b") ("@b") 20 [])
                else none) = .ok depth
          ∧ aget e order_map = some (depth, ev.origin_server_ts, e))
      ∧ (none = (none : Option String) → mainline = [])
      ∧ (none = (none : Option String) → ∀ e k, aget e order_map = some k → k.1 = 0)
      ∧ List.Perm [("e1"), ("e2")] [("e2"), ("e1")]
      ∧ List.Pairwise (fun a b =>
          mainLeB ((aget a order_map).getD (0, 0, a)) ((aget b order_map).getD (0, 0, b))
            = true) [("e1"), ("e2")] :=
  claim_C6 ("r") [("e2"), ("e1")] none
    (fun eid => if eid = ("e1")
      then some (exEvent ("e1") ("r") ("m.room.member") ("@a") ("@a") 10 [])
      else if eid = ("e2")
      then some (exEvent ("e2") ("r") ("m.room.member") ("@b") ("@b") 20 [])
      else none) 10 [("e1"), ("e2")] (by decide) (by decide)

/-! ## Claim C3: determinism -/

/-- Witness for C7: with inputs of one entry and one empty map, the key is
present in one input and absent in the other, so it lands in conflicted
even though the present values agree. -/
theorem claim_C7_witness :
    (aget ((("t"), ("k")) : StateKey)
      (_seperate [[(((("t"), ("k")) : StateKey), ("e1"))], []]).2).isSome :=
  (claim_C7 [[(((("t"), ("k")) : StateKey), ("e1"))], []] ((("t"), ("k")))).2.2.2.2
    (by decide) (by decide)

end V2
